import Mathlib

set_option maxHeartbeats 1000000

/-! Verification development for an in-place memory-allocator library: a
segregated free-list allocator, a buddy allocator, and a dispatch facade.
The definitions are a shallow embedding of the C sources under the LP64
data model (size_t and uintptr_t are 64 bits wide; struct sizes are the
usual x86-64 ABI sizes).  size_t arithmetic wraps modulo 2^64 and is
modelled with explicit reductions; addresses are modelled as unbounded
naturals (heap regions are assumed not to wrap the address space).
Ghost components (the lists of outstanding allocated blocks) model the
block headers that the allocators write into the managed region. -/

/-- Width of the size_t / uintptr_t machine integers (LP64). -/
def W : Nat := 2 ^ 64

/-- size_t addition (wraps modulo 2^64). -/
def wadd (a b : Nat) : Nat := (a + b) % W

/-- size_t subtraction (wraps modulo 2^64). -/
def wsub (a b : Nat) : Nat := (a + (W - b % W)) % W

/-- align_up from the sources: round the address p up to a multiple of a. -/
def align_up (p a : Nat) : Nat := (p + (a - 1)) / a * a

/-- The statistics block of the facade header (allocator_stats_t). -/
structure allocator_stats_t where
  total_allocations : Nat
  total_frees : Nat
  current_allocated : Nat
  peak_allocated : Nat
  current_requested : Nat
  peak_requested : Nat
  failed_allocations : Nat
  heap_size : Nat
deriving DecidableEq, Repr

/-- Statistics as produced by creation: the facade header is zeroed and the
    algorithm initializer stores the heap size it actually manages. -/
def stats_init (hs : Nat) : allocator_stats_t :=
  { total_allocations := 0, total_frees := 0, current_allocated := 0
    peak_allocated := 0, current_requested := 0, peak_requested := 0
    failed_allocations := 0, heap_size := hs }

/-- Statistics update on a successful allocation (both algorithms update the
    counters with this exact pattern). -/
def stats_on_alloc (s : allocator_stats_t) (committed requested : Nat) : allocator_stats_t :=
  let ca := wadd s.current_allocated committed
  let cr := wadd s.current_requested requested
  { s with
    total_allocations := wadd s.total_allocations 1
    current_allocated := ca
    peak_allocated := max s.peak_allocated ca
    current_requested := cr
    peak_requested := max s.peak_requested cr }

/-- Statistics update on a failed allocation. -/
def stats_on_fail (s : allocator_stats_t) : allocator_stats_t :=
  { s with failed_allocations := wadd s.failed_allocations 1 }

/-- Statistics update on a free that passed the header checks. -/
def stats_on_free (s : allocator_stats_t) (committed requested : Nat) : allocator_stats_t :=
  { s with
    total_frees := wadd s.total_frees 1
    current_allocated := wsub s.current_allocated committed
    current_requested := wsub s.current_requested requested }

/-! ## Segregated free-list allocator (segregated_freelist.c) -/

/-- The fixed table of size classes. -/
def SIZE_CLASSES : List Nat := [16, 32, 64, 128, 256, 512, 1024, 2048]

/-- SIZE_CLASSES[i]. -/
def size_class (i : Nat) : Nat := SIZE_CLASSES.getD i 0

def BLOCK_MAGIC : Nat := 0xDEADBEEF

/-- sizeof(block_header_t): two size_t fields and a uint32, padded to 24. -/
def SEG_HEADER_SIZE : Nat := 24

/-- sizeof(segregated_freelist_allocator_t): heap pointer, heap size, eight
    list heads, one large-list head. -/
def SEG_STATE_SIZE : Nat := 88

/-- get_size_class: the smallest class index whose size can hold the given
    size; none when it exceeds the largest class (the source returns -1). -/
def get_size_class (size : Nat) : Option Nat :=
  if size ≤ 16 then some 0
  else if size ≤ 32 then some 1
  else if size ≤ 64 then some 2
  else if size ≤ 128 then some 3
  else if size ≤ 256 then some 4
  else if size ≤ 512 then some 5
  else if size ≤ 1024 then some 6
  else if size ≤ 2048 then some 7
  else none

/-- align_size: round a size_t value up to a multiple of 8 (the source masks
    the low bits of size + 7, in wrapping size_t arithmetic). -/
def align_size (size : Nat) : Nat := ((size + 7) % W) / 8 * 8

/-- Header fields of an allocated segregated block, as written by alloc
    (ghost representation of the in-heap header at addr). -/
structure seg_block where
  addr : Nat
  committed : Nat
  requested : Nat
deriving DecidableEq, Repr

/-- In-place state of the segregated allocator: heap bounds, the eight class
    free lists (addresses of free blocks), and the large-block list with the
    node sizes stored in the free blocks. -/
structure seg_state where
  heap : Nat
  heap_size : Nat
  free_lists : Nat → List Nat
  large_blocks : List (Nat × Nat)

/-- Machine state: allocator state, facade statistics, and the ghost list of
    outstanding allocated blocks (the headers present in the heap). -/
structure seg_mach where
  st : seg_state
  stats : allocator_stats_t
  live : List seg_block

/-- First-fit scan of the large-block list: find the first node whose size is
    at least need, unlink it, and return it together with the remaining list
    (models the prev_ptr surgery of the scan loops in the source). -/
def cut_first_fit (l : List (Nat × Nat)) (need : Nat) :
    Option ((Nat × Nat) × List (Nat × Nat)) :=
  match l with
  | [] => none
  | (a, sz) :: rest =>
    if need ≤ sz then some ((a, sz), rest)
    else
      match cut_first_fit rest need with
      | some (e, rest2) => some (e, (a, sz) :: rest2)
      | none => none

/-- Serve a detached block: write the header (committed_size = total,
    requested_size = size, magic), update the statistics, and hand out the
    address just after the header. -/
def seg_serve (m : seg_mach) (st2 : seg_state) (addr total size : Nat) :
    seg_mach × Option Nat :=
  ({ st := st2
     stats := stats_on_alloc m.stats total size
     live := ⟨addr, total, size⟩ :: m.live },
   some (addr + SEG_HEADER_SIZE))

/-- The total footprint the source computes for a request: header added in
    size_t arithmetic, then rounded up to a multiple of 8.  This is the
    committed_size recorded in the served block's header. -/
def seg_total (size : Nat) : Nat := align_size ((size + SEG_HEADER_SIZE) % W)

/-- segregated_freelist_alloc.  total is the committed footprint recorded in
    the header; a class request is served from its class list, else cut from
    the large list (the cut is SIZE_CLASSES[i] wide and the remainder is
    kept only when at least SIZE_CLASSES[0] bytes); an over-class request is
    cut at total bytes from the large list. -/
def segregated_freelist_alloc (m : seg_mach) (size : Nat) : seg_mach × Option Nat :=
  if size = 0 then (m, none) else
  let total := seg_total size
  match get_size_class total with
  | some i =>
    match m.st.free_lists i with
    | b :: rest =>
        seg_serve m { m.st with free_lists := Function.update m.st.free_lists i rest }
          b total size
    | [] =>
        match cut_first_fit m.st.large_blocks (size_class i) with
        | some ((a, sz), rest) =>
            let remaining := sz - size_class i
            let lb := if size_class 0 ≤ remaining
                      then (a + size_class i, remaining) :: rest else rest
            seg_serve m { m.st with large_blocks := lb } a total size
        | none => ({ m with stats := stats_on_fail m.stats }, none)
  | none =>
    match cut_first_fit m.st.large_blocks total with
    | some ((a, sz), rest) =>
        let remaining := sz - total
        let lb := if size_class 0 ≤ remaining
                  then (a + total, remaining) :: rest else rest
        seg_serve m { m.st with large_blocks := lb } a total size
    | none => ({ m with stats := stats_on_fail m.stats }, none)

/-- segregated_freelist_free, given the header fields the code reads at
    ptr - HEADER_SIZE and the block base address: magic gate first, then the
    statistics update, then a push onto the exact-size class list or onto
    the large-block list. -/
def segregated_freelist_free_raw (m : seg_mach) (addr magic committed requested : Nat) :
    seg_mach :=
  if magic ≠ BLOCK_MAGIC then m else
  let stats2 := stats_on_free m.stats committed requested
  match get_size_class committed with
  | some i =>
      if committed = size_class i then
        { m with stats := stats2
                 st := { m.st with
                         free_lists := Function.update m.st.free_lists i
                           (addr :: m.st.free_lists i) } }
      else
        { m with stats := stats2
                 st := { m.st with large_blocks := (addr, committed) :: m.st.large_blocks } }
  | none =>
      { m with stats := stats2
               st := { m.st with large_blocks := (addr, committed) :: m.st.large_blocks } }

/-- Free of a live block through its true header (the valid-free case); the
    block leaves the ghost live list. -/
def segregated_freelist_free_valid (m : seg_mach) (b : seg_block) : seg_mach :=
  let m2 := segregated_freelist_free_raw m b.addr BLOCK_MAGIC b.committed b.requested
  { m2 with live := m.live.erase b }

/-- segregated_freelist_init over the byte span [region, region+region_size).
    Also returns the byte intervals written (the state memset and the initial
    large-block node), for reasoning about refused constructions. -/
def segregated_freelist_init (region region_size : Nat) :
    Option seg_state × List (Nat × Nat) :=
  if region_size < SEG_STATE_SIZE + size_class 0 then (none, []) else
  let impl_base := align_up region 8
  if region_size ≤ impl_base - region then (none, []) else
  let usable := region_size - (impl_base - region)
  if usable < SEG_STATE_SIZE + size_class 0 then (none, []) else
  -- the memset of the state struct happens here in the source
  let heap_start := align_up (impl_base + SEG_STATE_SIZE) 8
  if usable ≤ heap_start - impl_base then (none, [(impl_base, SEG_STATE_SIZE)]) else
  let hs := usable - (heap_start - impl_base)
  (some { heap := heap_start, heap_size := hs
          free_lists := fun _ => [], large_blocks := [(heap_start, hs)] },
   [(impl_base, SEG_STATE_SIZE), (heap_start, 16)])

/-! ## Buddy allocator (buddy_allocator.c) -/

def BUDDY_MAGIC : Nat := 0xC0FFEE42

def BUDDY_MAX_ORDERS : Nat := 32

/-- sizeof(buddy_block_header_t): uint32 magic, uint8 order, 3 pad bytes,
    size_t requested. -/
def BUDDY_HEADER_SIZE : Nat := 16

/-- sizeof(buddy_free_block_t): one next pointer. -/
def BUDDY_NODE_SIZE : Nat := 8

/-- sizeof(buddy_impl_t): base, heap_size, two orders with padding, and 32
    list heads. -/
def BUDDY_IMPL_SIZE : Nat := 280

/-- The shift-count loop of floor_log2_size; the first argument is fuel
    bounding the number of halvings (any fuel at least log2 x works, and the
    caller passes x itself). -/
def log2_loop : Nat → Nat → Nat → Nat
  | 0, _, r => r
  | fuel + 1, x, r =>
    let y := x / 2
    if y = 0 then r else log2_loop fuel y (r + 1)

/-- floor_log2_size: the source counts how often x can be right-shifted
    before reaching zero. -/
def floor_log2_size (x : Nat) : Nat := log2_loop x x 0

/-- ceil_log2_size from the source. -/
def ceil_log2_size (x : Nat) : Nat :=
  if x ≤ 1 then 0 else floor_log2_size (x - 1) + 1

/-- order_to_size: 2^order. -/
def order_to_size (order : Nat) : Nat := 2 ^ order

/-- The doubling loop of compute_min_order; the fuel bounds the iteration
    count (the loop doubles v starting from 1 until it covers the target). -/
def min_order_loop : Nat → Nat → Nat → Nat
  | 0, _, ord => ord
  | fuel + 1, v, ord =>
    if v < max BUDDY_NODE_SIZE BUDDY_HEADER_SIZE then
      min_order_loop fuel (2 * v) (ord + 1)
    else ord

/-- compute_min_order: the smallest order covering both the free-node struct
    and the allocated header, clamped to at least 5 (32-byte blocks). -/
def compute_min_order : Nat :=
  let ord := min_order_loop 16 1 0
  if ord < 5 then 5 else ord

/-- Header fields of an allocated buddy block, as written by alloc (ghost
    representation of the in-heap header at addr). -/
structure buddy_block where
  addr : Nat
  order : Nat
  requested : Nat
deriving DecidableEq, Repr

/-- In-place state of the buddy allocator. -/
structure buddy_state where
  base : Nat
  heap_size : Nat
  min_order : Nat
  max_order : Nat
  free_lists : Nat → List Nat

/-- Machine state: allocator state, facade statistics, ghost live list. -/
structure buddy_mach where
  st : buddy_state
  stats : allocator_stats_t
  live : List buddy_block

/-- push_free: push a block on the head of the list of the given order. -/
def push_free (fl : Nat → List Nat) (order block : Nat) : Nat → List Nat :=
  Function.update fl order (block :: fl order)

/-- The upward scan of buddy_allocator_alloc, written with the remaining
    number of orders to inspect as a structural counter (the loop runs from
    k to maxo inclusive, i.e. maxo + 1 - k times). -/
def find_free_go (fl : Nat → List Nat) : Nat → Nat → Option Nat
  | 0, _ => none
  | n + 1, k =>
    match fl k with
    | [] => find_free_go fl n (k + 1)
    | _ :: _ => some k

/-- Scan upward from k for the first non-empty free list at order ≤ maxo. -/
def find_free_order (fl : Nat → List Nat) (maxo k : Nat) : Option Nat :=
  find_free_go fl (maxo + 1 - k) k

/-- The halving loop of buddy_allocator_alloc: while found is above the
    target order, halve, push the upper half on the list one order down,
    and keep the lower half (the source decrements found first, so at order
    found + 1 the pushed half is block + 2^found). -/
def split_loop (block : Nat) : (Nat → List Nat) → Nat → Nat → (Nat → List Nat)
  | fl, found + 1, order =>
    if order < found + 1 then
      split_loop block (push_free fl found (block + order_to_size found)) found order
    else fl
  | fl, 0, _ => fl

/-- The order the source computes for a request: ceil_log2 of the wrapped
    size_t value size + header, clamped from below to min_order. -/
def buddy_order (st : buddy_state) (size : Nat) : Nat :=
  let need := (size + BUDDY_HEADER_SIZE) % W
  let order0 := ceil_log2_size need
  if order0 < st.min_order then st.min_order else order0

/-- buddy_allocator_alloc.  The order is the clamp of ceil_log2 of the
    wrapped size_t value size + header; the block is popped from the first
    non-empty list at or above it and split down.  (The inner [] case is
    unreachable: find_free_order only returns non-empty orders.) -/
def buddy_allocator_alloc (m : buddy_mach) (size : Nat) : buddy_mach × Option Nat :=
  if size = 0 then (m, none) else
  let order := buddy_order m.st size
  if m.st.max_order < order then ({ m with stats := stats_on_fail m.stats }, none) else
  match find_free_order m.st.free_lists m.st.max_order order with
  | none => ({ m with stats := stats_on_fail m.stats }, none)
  | some found =>
    match m.st.free_lists found with
    | [] => ({ m with stats := stats_on_fail m.stats }, none)
    | block :: rest =>
      let fl1 := Function.update m.st.free_lists found rest
      let fl2 := split_loop block fl1 found order
      ({ st := { m.st with free_lists := fl2 }
         stats := stats_on_alloc m.stats (order_to_size order) size
         live := ⟨block, order, size⟩ :: m.live },
       some (block + BUDDY_HEADER_SIZE))

/-- try_remove_buddy_from_list: detach the exact address when present. -/
def try_remove_buddy (l : List Nat) (buddy : Nat) : Option (List Nat) :=
  if buddy ∈ l then some (l.erase buddy) else none

/-- The body of the coalescing loop, with the remaining number of merge
    rounds (maxo - order) as a structural counter. -/
def coalesce_go (base : Nat) : Nat → (Nat → List Nat) → Nat → Nat →
    (Nat → List Nat) × Nat × Nat
  | 0, fl, b, order => (fl, b, order)
  | n + 1, fl, b, order =>
    let buddy := base + ((b - base) ^^^ order_to_size order)
    match try_remove_buddy (fl order) buddy with
    | none => (fl, b, order)
    | some l2 => coalesce_go base n (Function.update fl order l2) (min b buddy) (order + 1)

/-- The coalescing loop of buddy_allocator_free: while below max_order, look
    for the XOR-buddy on the current order's list; when found, detach it,
    continue from the smaller of the two addresses one order up. -/
def coalesce_loop (fl : Nat → List Nat) (base maxo b order : Nat) :
    (Nat → List Nat) × Nat × Nat :=
  coalesce_go base (maxo - order) fl b order

/-- buddy_allocator_free, given the header fields read at ptr - header and
    the block base address.  Magic gate, order-range gate, then the
    statistics update, then the base-range gate, then coalescing and the
    final push. -/
def buddy_allocator_free_raw (m : buddy_mach) (addr magic order requested : Nat) :
    buddy_mach :=
  if magic ≠ BUDDY_MAGIC then m else
  if order < m.st.min_order ∨ m.st.max_order < order then m else
  let stats2 := stats_on_free m.stats (order_to_size order) requested
  if addr < m.st.base ∨ m.st.base + m.st.heap_size ≤ addr then
    { m with stats := stats2 }
  else
    let r := coalesce_loop m.st.free_lists m.st.base m.st.max_order addr order
    { m with stats := stats2
             st := { m.st with free_lists := push_free r.1 r.2.2 r.2.1 } }

/-- Free of a live buddy block through its true header. -/
def buddy_allocator_free_valid (m : buddy_mach) (b : buddy_block) : buddy_mach :=
  let m2 := buddy_allocator_free_raw m b.addr BUDDY_MAGIC b.order b.requested
  { m2 with live := m.live.erase b }

/-- The descending scan of buddy_allocator_init: try each order from mo
    down, strictly above mino, for an aligned block that fits. -/
def choose_base (after_impl region_end : Nat) : Nat → Nat → Option (Nat × Nat)
  | 0, _ => none
  | mo + 1, mino =>
    if mino < mo + 1 then
      let bs := order_to_size (mo + 1)
      let b := align_up after_impl bs
      if b + bs ≤ region_end then some (b, mo + 1)
      else choose_base after_impl region_end mo mino
    else none

/-- buddy_allocator_init over [region, region+region_size), also returning
    the byte intervals written (the impl memset and the initial free node). -/
def buddy_allocator_init (region region_size : Nat) :
    Option buddy_state × List (Nat × Nat) :=
  if region_size < BUDDY_IMPL_SIZE + 256 then (none, []) else
  let impl_base := align_up region 16
  if region_size ≤ impl_base - region then (none, []) else
  let usable := region_size - (impl_base - region)
  if usable < BUDDY_IMPL_SIZE + 256 then (none, []) else
  -- the memset of the impl struct happens here in the source
  let mino := compute_min_order
  let after_impl := align_up (impl_base + BUDDY_IMPL_SIZE) 16
  if usable ≤ after_impl - impl_base then (none, [(impl_base, BUDDY_IMPL_SIZE)]) else
  let region_end := impl_base + usable
  let available := region_end - after_impl
  if available < order_to_size mino then (none, [(impl_base, BUDDY_IMPL_SIZE)]) else
  let mo0 := min (floor_log2_size available) (BUDDY_MAX_ORDERS - 1)
  let fallback_result : Option buddy_state × List (Nat × Nat) :=
    let bs := order_to_size mino
    let b := align_up after_impl bs
    if region_end < b + bs then (none, [(impl_base, BUDDY_IMPL_SIZE)])
    else (some { base := b, heap_size := bs, min_order := mino, max_order := mino
                 free_lists := push_free (fun _ => []) mino b },
          [(impl_base, BUDDY_IMPL_SIZE), (b, BUDDY_NODE_SIZE)])
  match choose_base after_impl region_end mo0 mino with
  | some (b, mo) =>
    if b = 0 then
      -- the source reads a null base pointer as scan failure and falls back
      fallback_result
    else
      (some { base := b, heap_size := order_to_size mo, min_order := mino, max_order := mo
              free_lists := push_free (fun _ => []) mo b },
       [(impl_base, BUDDY_IMPL_SIZE), (b, BUDDY_NODE_SIZE)])
  | none => fallback_result

/-! ## Facade (allocator.c) -/

/-- allocator_type_t. -/
inductive allocator_type_t
| segregated_freelist
| buddy
deriving DecidableEq, Repr

/-- The facade: the chosen algorithm's machine state (the statistics live in
    the facade header in the source; here they sit inside each machine). -/
inductive facade
| seg (m : seg_mach)
| buddy (m : buddy_mach)

/-- sizeof(allocator_t): tag, region pointers and sizes, impl pointer,
    ownership flag, three operation slots, statistics. -/
def ALLOCATOR_HEADER_SIZE : Nat := 144

/-- allocator_alloc: dispatch to the chosen algorithm. -/
def allocator_alloc : facade → Nat → facade × Option Nat
  | facade.seg m, n =>
    let r := segregated_freelist_alloc m n
    (facade.seg r.1, r.2)
  | facade.buddy m, n =>
    let r := buddy_allocator_alloc m n
    (facade.buddy r.1, r.2)

/-- allocator_free at a user pointer p.  The ghost live list models the
    headers written by alloc: when p is a live payload pointer the free
    reads that block's true header; otherwise the magic check fails in the
    model (stale or foreign header bytes are not represented). -/
def allocator_free_at : facade → Nat → facade
  | facade.seg m, p =>
    match m.live.find? (fun b => b.addr + SEG_HEADER_SIZE == p) with
    | some b => facade.seg (segregated_freelist_free_valid m b)
    | none => facade.seg m
  | facade.buddy m, p =>
    match m.live.find? (fun b => b.addr + BUDDY_HEADER_SIZE == p) with
    | some b => facade.buddy (buddy_allocator_free_valid m b)
    | none => facade.buddy m

/-- allocator_realloc: null pointer delegates to alloc; zero size frees and
    returns null; otherwise allocate first and free the old block only when
    the new allocation succeeded.  No payload bytes are copied: the result
    is exactly the composition of alloc and free. -/
def allocator_realloc (f : facade) (ptr : Option Nat) (new_size : Nat) :
    facade × Option Nat :=
  match ptr with
  | none => allocator_alloc f new_size
  | some p =>
    if new_size = 0 then (allocator_free_at f p, none)
    else
      match allocator_alloc f new_size with
      | (f1, some q) => (allocator_free_at f1 p, some q)
      | (f1, none) => (f1, none)

/-- allocator_create over [rm, rm + memory_size) for a non-null region, or a
    null region (realMemory = none).  Returns the facade (when construction
    succeeds) together with the byte intervals written into the caller's
    region: the facade-header memset and the algorithm initializer's writes. -/
def allocator_create (ty : allocator_type_t) (realMemory : Option Nat)
    (memory_size : Nat) : Option facade × List (Nat × Nat) :=
  match realMemory with
  | none => (none, [])
  | some rm =>
    if memory_size < ALLOCATOR_HEADER_SIZE then (none, []) else
    let base := align_up rm 16
    if memory_size ≤ base - rm then (none, []) else
    let usable := memory_size - (base - rm)
    if usable < ALLOCATOR_HEADER_SIZE then (none, []) else
    -- the memset of the allocator_t header happens here in the source
    let hw := [(base, ALLOCATOR_HEADER_SIZE)]
    let after_hdr := align_up (base + ALLOCATOR_HEADER_SIZE) 16
    if usable < after_hdr - base then (none, hw) else
    let impl_region := after_hdr
    let impl_region_size := usable - (after_hdr - base)
    match ty with
    | allocator_type_t.segregated_freelist =>
      match segregated_freelist_init impl_region impl_region_size with
      | (some st, ws) =>
        (some (facade.seg { st := st, stats := stats_init st.heap_size, live := [] }),
         hw ++ ws)
      | (none, ws) => (none, hw ++ ws)
    | allocator_type_t.buddy =>
      match buddy_allocator_init impl_region impl_region_size with
      | (some st, ws) =>
        (some (facade.buddy { st := st, stats := stats_init st.heap_size, live := [] }),
         hw ++ ws)
      | (none, ws) => (none, hw ++ ws)

/-- The effect of a failed allocation on the whole facade: only the
    failed_allocations counter moves. -/
def bump_failed : facade → facade
  | facade.seg m => facade.seg { m with stats := stats_on_fail m.stats }
  | facade.buddy m => facade.buddy { m with stats := stats_on_fail m.stats }

/-! ## Valid operation sequences (reachability) -/

/-- States of the segregated machine reachable by valid facade operations:
    construction, any allocation, and frees of outstanding blocks through
    their intact headers. -/
inductive seg_reach : seg_mach → Prop
| created (region region_size : Nat) (st : seg_state)
    (h : (segregated_freelist_init region region_size).1 = some st) :
    seg_reach { st := st, stats := stats_init st.heap_size, live := [] }
| stepped_alloc (m : seg_mach) (s : Nat) (h : seg_reach m) :
    seg_reach (segregated_freelist_alloc m s).1
| stepped_free (m : seg_mach) (b : seg_block) (h : seg_reach m) (hb : b ∈ m.live) :
    seg_reach (segregated_freelist_free_valid m b)

/-- As seg_reach, but every allocation request keeps size + header + padding
    inside the size_t range (no wrap in the footprint computation), and the
    constructed region has a size_t size. -/
inductive seg_reach_ok : seg_mach → Prop
| created (region region_size : Nat) (st : seg_state)
    (hW : region_size < W)
    (h : (segregated_freelist_init region region_size).1 = some st) :
    seg_reach_ok { st := st, stats := stats_init st.heap_size, live := [] }
| stepped_alloc (m : seg_mach) (s : Nat) (h : seg_reach_ok m) (hs : s + 31 < W) :
    seg_reach_ok (segregated_freelist_alloc m s).1
| stepped_free (m : seg_mach) (b : seg_block) (h : seg_reach_ok m) (hb : b ∈ m.live) :
    seg_reach_ok (segregated_freelist_free_valid m b)

/-- States of the buddy machine reachable by valid facade operations. -/
inductive buddy_reach : buddy_mach → Prop
| created (region region_size : Nat) (st : buddy_state)
    (h : (buddy_allocator_init region region_size).1 = some st) :
    buddy_reach { st := st, stats := stats_init st.heap_size, live := [] }
| stepped_alloc (m : buddy_mach) (s : Nat) (h : buddy_reach m) :
    buddy_reach (buddy_allocator_alloc m s).1
| stepped_free (m : buddy_mach) (b : buddy_block) (h : buddy_reach m) (hb : b ∈ m.live) :
    buddy_reach (buddy_allocator_free_valid m b)

/-- As buddy_reach, with non-wrapping allocation sizes. -/
inductive buddy_reach_ok : buddy_mach → Prop
| created (region region_size : Nat) (st : buddy_state)
    (hW : region_size < W)
    (h : (buddy_allocator_init region region_size).1 = some st) :
    buddy_reach_ok { st := st, stats := stats_init st.heap_size, live := [] }
| stepped_alloc (m : buddy_mach) (s : Nat) (h : buddy_reach_ok m) (hs : s + 31 < W) :
    buddy_reach_ok (buddy_allocator_alloc m s).1
| stepped_free (m : buddy_mach) (b : buddy_block) (h : buddy_reach_ok m) (hb : b ∈ m.live) :
    buddy_reach_ok (buddy_allocator_free_valid m b)

/-- Reachable facades. -/
def fac_reach : facade → Prop
  | facade.seg m => seg_reach m
  | facade.buddy m => buddy_reach m

/-- Reachable facades along non-wrapping request sizes. -/
def fac_reach_ok : facade → Prop
  | facade.seg m => seg_reach_ok m
  | facade.buddy m => buddy_reach_ok m

/-! ## Segregated allocator: shape lemmas -/

/-- Bytes held on the free lists (class lists count their class size, large
    nodes count their stored size). -/
def seg_free_bytes (st : seg_state) : Nat :=
  (∑ i ∈ Finset.range 8, (st.free_lists i).length * size_class i)
    + (st.large_blocks.map (fun e => e.2)).sum

/-! ## Segregated allocator: invariants -/

/-- Address alignment of every block the segregated allocator tracks. -/
structure seg_align (m : seg_mach) : Prop where
  fa : ∀ i, ∀ a ∈ m.st.free_lists i, a % 8 = 0
  la : ∀ e ∈ m.st.large_blocks, e.1 % 8 = 0
  va : ∀ b ∈ m.live, b.addr % 8 = 0

/-- Accounting invariant of the segregated machine (holds along sequences
    whose allocation sizes do not wrap the size_t footprint computation). -/
structure seg_inv (m : seg_mach) : Prop where
  ca : m.stats.current_allocated = (m.live.map (fun b => b.committed)).sum
  cr : m.stats.current_requested = (m.live.map (fun b => b.requested)).sum
  rc : ∀ b ∈ m.live, b.requested ≤ b.committed
  acc : seg_free_bytes m.st + (m.live.map (fun b => b.committed)).sum ≤ m.st.heap_size
  hsW : m.st.heap_size < W
  hs_eq : m.stats.heap_size = m.st.heap_size

/-! ## Point-counting framework for the buddy heap

Blocks are viewed as intervals of addresses; the central invariant states
that the free-list blocks and the live blocks cover every heap address
exactly once. -/

/-- Indicator of address p lying in the block of order k based at a. -/
def ivl (a k p : Nat) : Nat := if a ≤ p ∧ p < a + 2 ^ k then 1 else 0

/-- How often p is covered by order-k blocks from the list l. -/
def lcnt (l : List Nat) (k p : Nat) : Nat := (l.map (fun a => ivl a k p)).sum

/-- How often p is covered by the free lists (orders 0..31). -/
def fcnt (fl : Nat → List Nat) (p : Nat) : Nat :=
  ∑ k ∈ Finset.range 32, lcnt (fl k) k p

/-- How often p is covered by the live (allocated) blocks. -/
def vcnt (live : List buddy_block) (p : Nat) : Nat :=
  (live.map (fun b => ivl b.addr b.order p)).sum

/-! ## Buddy allocator: structural invariant -/

/-- Well-formedness of the free lists relative to base and the order range:
    lists above index 31 are untouched, every entry's order lies in
    [mino, maxo], every entry is an aligned in-heap address, and no two free
    blocks of the same order below maxo are buddies. -/
def lists_ok (base mino maxo : Nat) (fl : Nat → List Nat) : Prop :=
  (∀ k, 32 ≤ k → fl k = []) ∧
  (∀ k, ∀ a ∈ fl k, mino ≤ k ∧ k ≤ maxo) ∧
  (∀ k, ∀ a ∈ fl k, base ≤ a ∧ 2 ^ k ∣ (a - base)) ∧
  (∀ k, k < maxo → ∀ a ∈ fl k, (base + ((a - base) ^^^ 2 ^ k)) ∉ fl k)

/-- The structural invariant of the buddy machine: the free blocks and the
    live blocks tile the heap [base, base + 2^max_order) exactly. -/
structure buddy_sinv (m : buddy_mach) : Prop where
  hs2 : m.st.heap_size = 2 ^ m.st.max_order
  mn5 : 5 ≤ m.st.min_order
  mm : m.st.min_order ≤ m.st.max_order
  mo31 : m.st.max_order ≤ 31
  ba : 2 ^ m.st.max_order ∣ m.st.base
  lok : lists_ok m.st.base m.st.min_order m.st.max_order m.st.free_lists
  cover : ∀ p, fcnt m.st.free_lists p + vcnt m.live p = ivl m.st.base m.st.max_order p
  ordL : ∀ b ∈ m.live, m.st.min_order ≤ b.order ∧ b.order ≤ m.st.max_order
  alL : ∀ b ∈ m.live, m.st.base ≤ b.addr ∧ 2 ^ b.order ∣ (b.addr - m.st.base)

/-- Accounting invariant of the buddy machine (holds along sequences whose
    allocation sizes do not wrap the size_t footprint computation). -/
structure buddy_inv (m : buddy_mach) : Prop where
  ca : m.stats.current_allocated = (m.live.map (fun b => 2 ^ b.order)).sum
  cr : m.stats.current_requested = (m.live.map (fun b => b.requested)).sum
  rc : ∀ b ∈ m.live, b.requested ≤ 2 ^ b.order
  hsW : m.st.heap_size < W
  hs_eq : m.stats.heap_size = m.st.heap_size

/-! ## Facade views -/

/-- The statistics block of the facade header. -/
def fac_stats : facade → allocator_stats_t
  | facade.seg m => m.stats
  | facade.buddy m => m.stats

/-- The outstanding allocations as (payload pointer, committed bytes,
    requested bytes) triples. -/
def fac_out : facade → List (Nat × Nat × Nat)
  | facade.seg m =>
    m.live.map (fun b => (b.addr + SEG_HEADER_SIZE, b.committed, b.requested))
  | facade.buddy m =>
    m.live.map (fun b => (b.addr + BUDDY_HEADER_SIZE, 2 ^ b.order, b.requested))

/-- The alignment each algorithm guarantees for returned payload pointers. -/
def fac_align_req : facade → Nat
  | facade.seg _ => 8
  | facade.buddy _ => 16

/-- allocator_realloc as the specification words it: a null pointer delegates
    to alloc; a zero size frees and returns null; otherwise a new block is
    allocated and, when one was obtained, the old one is freed — no payload
    bytes are copied anywhere. -/
def realloc_model (f : facade) (ptr : Option Nat) (new_size : Nat) :
    facade × Option Nat :=
  match ptr with
  | none => allocator_alloc f new_size
  | some p =>
    if new_size = 0 then (allocator_free_at f p, none)
    else
      let r := allocator_alloc f new_size
      if r.2.isSome then (allocator_free_at r.1 p, r.2) else r

/-- The segregated state produced by initializing over [0, 2^20). -/
def SEG_ST0 : seg_state :=
  { heap := 88, heap_size := 1048488, free_lists := fun _ => []
    large_blocks := [(88, 1048488)] }

/-- The fresh segregated machine over [0, 2^20). -/
def seg_M0 : seg_mach :=
  { st := SEG_ST0, stats := stats_init SEG_ST0.heap_size, live := [] }

/-- The buddy state produced by initializing over [0, 2^20). -/
def BUD_ST0 : buddy_state :=
  { base := 524288, heap_size := 524288, min_order := 5, max_order := 19
    free_lists := push_free (fun _ => []) 19 524288 }

/-- The fresh buddy machine over [0, 2^20). -/
def bud_M0 : buddy_mach :=
  { st := BUD_ST0, stats := stats_init BUD_ST0.heap_size, live := [] }

/-! ## Arithmetic facts -/

theorem W_pos : 0 < W := by decide

theorem wadd_eq {a b : Nat} (h : a + b < W) : wadd a b = a + b := by
  simpa [wadd] using Nat.mod_eq_of_lt h

theorem wsub_eq {a b : Nat} (ha : a < W) (hb : b ≤ a) : wsub a b = a - b := by
  have hbW : b < W := lt_of_le_of_lt hb ha
  have h1 : b % W = b := Nat.mod_eq_of_lt hbW
  have h2 : a + (W - b) = W + (a - b) := by omega
  have h3 : a - b < W := by omega
  simp [wsub, h1, h2, Nat.add_mod_left, Nat.mod_eq_of_lt h3]

theorem align_size_mod8 (x : Nat) : align_size x % 8 = 0 := by
  simp [align_size, Nat.mul_mod_left]

theorem align_size_bounds {x : Nat} (h : x + 7 < W) :
    x ≤ align_size x ∧ align_size x ≤ x + 7 := by
  have hm : (x + 7) % W = x + 7 := Nat.mod_eq_of_lt h
  have hdm := Nat.div_add_mod (x + 7) 8
  have hr : (x + 7) % 8 < 8 := Nat.mod_lt _ (by omega)
  simp only [align_size, hm]
  omega

theorem seg_total_bounds {s : Nat} (h : s + 31 < W) :
    s + SEG_HEADER_SIZE ≤ seg_total s ∧ seg_total s ≤ s + SEG_HEADER_SIZE + 7 := by
  have h24 : (s + SEG_HEADER_SIZE) % W = s + SEG_HEADER_SIZE := by
    apply Nat.mod_eq_of_lt; simp [SEG_HEADER_SIZE]; omega
  have := align_size_bounds (x := s + SEG_HEADER_SIZE) (by simp [SEG_HEADER_SIZE]; omega)
  simp only [seg_total, h24]
  omega

theorem align_up_le {p a : Nat} (ha : 0 < a) : p ≤ align_up p a ∧ align_up p a < p + a := by
  have hdm := Nat.div_add_mod (p + (a - 1)) a
  have hr : (p + (a - 1)) % a < a := Nat.mod_lt _ ha
  have key : p ≤ a * ((p + (a - 1)) / a) ∧ a * ((p + (a - 1)) / a) < p + a := by omega
  simpa [align_up, Nat.mul_comm] using key

theorem align_up_dvd (p a : Nat) : a ∣ align_up p a := dvd_mul_left a _

/-- Facts about the class table lookup. -/
theorem get_size_class_spec {s i : Nat} (h : get_size_class s = some i) :
    i < 8 ∧ s ≤ size_class i ∧ 16 ≤ size_class i ∧ size_class i ≤ 2048 ∧
      size_class i % 8 = 0 := by
  have e0 : size_class 0 = 16 := rfl
  have e1 : size_class 1 = 32 := rfl
  have e2 : size_class 2 = 64 := rfl
  have e3 : size_class 3 = 128 := rfl
  have e4 : size_class 4 = 256 := rfl
  have e5 : size_class 5 = 512 := rfl
  have e6 : size_class 6 = 1024 := rfl
  have e7 : size_class 7 = 2048 := rfl
  simp only [get_size_class] at h
  split_ifs at h <;>
    first
    | exact Option.noConfusion h
    | (obtain rfl : _ = i := Option.some.inj h
       refine ⟨by omega, ?_, ?_, ?_, ?_⟩ <;>
         simp only [e0, e1, e2, e3, e4, e5, e6, e7] <;> omega)

/-- The lookup succeeds exactly on sizes up to the largest class. -/
theorem get_size_class_none {s : Nat} (h : get_size_class s = none) : 2048 < s := by
  simp only [get_size_class] at h
  split_ifs at h <;> first | exact Option.noConfusion h | omega

/-- First-fit cut specification: the returned node fits, belongs to the
    list, and the rest is the list without this first fitting node. -/
theorem cut_first_fit_spec {l : List (Nat × Nat)} {need a sz : Nat}
    {rest : List (Nat × Nat)}
    (h : cut_first_fit l need = some ((a, sz), rest)) :
    need ≤ sz ∧ (a, sz) ∈ l ∧ l.Perm ((a, sz) :: rest) := by
  induction l generalizing rest with
  | nil => simp [cut_first_fit] at h
  | cons e t ih =>
    obtain ⟨ea, esz⟩ := e
    simp only [cut_first_fit] at h
    by_cases hf : need ≤ esz
    · rw [if_pos hf] at h
      simp only [Option.some.injEq, Prod.mk.injEq] at h
      obtain ⟨⟨rfl, rfl⟩, rfl⟩ := h
      exact ⟨hf, List.mem_cons_self _ _, List.Perm.refl _⟩
    · rw [if_neg hf] at h
      cases hrec : cut_first_fit t need with
      | none => rw [hrec] at h; cases h
      | some er =>
        obtain ⟨⟨a2, sz2⟩, rest2⟩ := er
        rw [hrec] at h
        simp only [Option.some.injEq, Prod.mk.injEq] at h
        obtain ⟨⟨rfl, rfl⟩, rfl⟩ := h
        obtain ⟨h1, h2, h3⟩ := ih hrec
        refine ⟨h1, List.mem_cons_of_mem _ h2, ?_⟩
        exact ((h3.cons (ea, esz)).trans (List.Perm.swap _ _ _))

/-! ## List and sum helpers -/

theorem sum_map_erase_of_mem {α : Type} [DecidableEq α] (f : α → Nat) {l : List α}
    {b : α} (hb : b ∈ l) :
    (l.map f).sum = f b + ((l.erase b).map f).sum := by
  have hp : l.Perm (b :: l.erase b) := List.perm_cons_erase hb
  simpa using (hp.map f).sum_eq

theorem sum_range_update {n k : Nat} (hk : k < n) (fl : Nat → List Nat) (L : List Nat)
    (F : Nat → List Nat → Nat) :
    (∑ i ∈ Finset.range n, F i (Function.update fl k L i)) + F k (fl k)
      = (∑ i ∈ Finset.range n, F i (fl i)) + F k L := by
  have hmem : k ∈ Finset.range n := Finset.mem_range.mpr hk
  rw [Finset.sum_eq_add_sum_diff_singleton hmem
        (fun i => F i (Function.update fl k L i)),
      Finset.sum_eq_add_sum_diff_singleton hmem (fun i => F i (fl i))]
  have hcong : ∑ i ∈ Finset.range n \ {k}, F i (Function.update fl k L i)
      = ∑ i ∈ Finset.range n \ {k}, F i (fl i) := by
    apply Finset.sum_congr rfl
    intro i hi
    have hik : i ≠ k := by
      rcases Finset.mem_sdiff.mp hi with ⟨_, hik⟩
      simpa using hik
    rw [Function.update_noteq hik]
  rw [Function.update_same, hcong]
  ring

/-- A failing (or size-zero) allocation touches only the failure counter. -/
theorem seg_alloc_fail {m : seg_mach} {s : Nat} {m2 : seg_mach}
    (h : segregated_freelist_alloc m s = (m2, none)) :
    m2 = if s = 0 then m else { m with stats := stats_on_fail m.stats } := by
  by_cases hs : s = 0
  · simp only [segregated_freelist_alloc, if_pos hs] at h
    simp [if_pos hs, (Prod.mk.injEq _ _ _ _).mp h]
  simp only [segregated_freelist_alloc, if_neg hs] at h
  rw [if_neg hs]
  cases hgc : get_size_class (seg_total s) with
  | some i =>
    simp only [hgc] at h
    cases hfl : m.st.free_lists i with
    | cons b rest => simp only [hfl, seg_serve] at h; cases h
    | nil =>
      simp only [hfl] at h
      cases hcut : cut_first_fit m.st.large_blocks (size_class i) with
      | some er =>
        obtain ⟨⟨a, sz⟩, rest⟩ := er
        simp only [hcut, seg_serve] at h
        cases h
      | none =>
        simp only [hcut] at h
        exact ((Prod.mk.injEq _ _ _ _).mp h).1.symm
  | none =>
    simp only [hgc] at h
    cases hcut : cut_first_fit m.st.large_blocks (seg_total s) with
    | some er =>
      obtain ⟨⟨a, sz⟩, rest⟩ := er
      simp only [hcut, seg_serve] at h
      cases h
    | none =>
      simp only [hcut] at h
      exact ((Prod.mk.injEq _ _ _ _).mp h).1.symm

/-- Full case description of a successful segregated allocation: the served
    block records committed_size = seg_total s, and it came off the head of
    the matching class list, or was cut at class width from the large list,
    or (no class) was cut at seg_total s from the large list. -/
theorem seg_alloc_success {m : seg_mach} {s : Nat} {m2 : seg_mach} {p : Nat}
    (h : segregated_freelist_alloc m s = (m2, some p)) :
    s ≠ 0 ∧
    ∃ a, p = a + SEG_HEADER_SIZE ∧
      m2.live = ⟨a, seg_total s, s⟩ :: m.live ∧
      m2.stats = stats_on_alloc m.stats (seg_total s) s ∧
      ((∃ i rest, get_size_class (seg_total s) = some i ∧
          m.st.free_lists i = a :: rest ∧
          m2.st = { m.st with free_lists := Function.update m.st.free_lists i rest }) ∨
       (∃ i sz rest, get_size_class (seg_total s) = some i ∧
          m.st.free_lists i = [] ∧
          cut_first_fit m.st.large_blocks (size_class i) = some ((a, sz), rest) ∧
          m2.st = { m.st with
            large_blocks := if size_class 0 ≤ sz - size_class i
              then (a + size_class i, sz - size_class i) :: rest else rest }) ∨
       (∃ sz rest, get_size_class (seg_total s) = none ∧
          cut_first_fit m.st.large_blocks (seg_total s) = some ((a, sz), rest) ∧
          m2.st = { m.st with
            large_blocks := if size_class 0 ≤ sz - seg_total s
              then (a + seg_total s, sz - seg_total s) :: rest else rest })) := by
  by_cases hs : s = 0
  · simp only [segregated_freelist_alloc, if_pos hs] at h
    cases h
  refine ⟨hs, ?_⟩
  simp only [segregated_freelist_alloc, if_neg hs] at h
  cases hgc : get_size_class (seg_total s) with
  | some i =>
    simp only [hgc] at h
    cases hfl : m.st.free_lists i with
    | cons b rest =>
      simp only [hfl, seg_serve, Prod.mk.injEq, Option.some.injEq] at h
      obtain ⟨rfl, rfl⟩ := h
      exact ⟨b, rfl, rfl, rfl, Or.inl ⟨i, rest, rfl, hfl, rfl⟩⟩
    | nil =>
      simp only [hfl] at h
      cases hcut : cut_first_fit m.st.large_blocks (size_class i) with
      | some er =>
        obtain ⟨⟨a, sz⟩, rest⟩ := er
        simp only [hcut, seg_serve, Prod.mk.injEq, Option.some.injEq] at h
        obtain ⟨rfl, rfl⟩ := h
        exact ⟨a, rfl, rfl, rfl, Or.inr (Or.inl ⟨i, sz, rest, rfl, hfl, hcut, rfl⟩)⟩
      | none => simp [hcut] at h
  | none =>
    simp only [hgc] at h
    cases hcut : cut_first_fit m.st.large_blocks (seg_total s) with
    | some er =>
      obtain ⟨⟨a, sz⟩, rest⟩ := er
      simp only [hcut, seg_serve, Prod.mk.injEq, Option.some.injEq] at h
      obtain ⟨rfl, rfl⟩ := h
      exact ⟨a, rfl, rfl, rfl, Or.inr (Or.inr ⟨sz, rest, rfl, rfl, rfl⟩)⟩
    | none => simp [hcut] at h

/-- Characterization of a successful segregated initialization. -/
theorem seg_init_spec {region region_size : Nat} {st : seg_state}
    (h : (segregated_freelist_init region region_size).1 = some st) :
    st.heap % 8 = 0 ∧ st.free_lists = (fun _ => []) ∧
      st.large_blocks = [(st.heap, st.heap_size)] ∧ st.heap_size ≤ region_size := by
  simp only [segregated_freelist_init] at h
  split_ifs at h with h1 h2 h3 h4
  all_goals try cases h
  refine ⟨?_, rfl, rfl, ?_⟩
  · have hd := align_up_dvd (align_up region 8 + SEG_STATE_SIZE) 8
    show align_up (align_up region 8 + SEG_STATE_SIZE) 8 % 8 = 0
    omega
  · show region_size - (align_up region 8 - region) -
        (align_up (align_up region 8 + SEG_STATE_SIZE) 8 - align_up region 8) ≤ region_size
    omega

/-- The magic gate: a free whose header magic is wrong changes nothing. -/
theorem seg_free_raw_magic {m : seg_mach} {addr mg c r : Nat} (h : mg ≠ BLOCK_MAGIC) :
    segregated_freelist_free_raw m addr mg c r = m := by
  simp [segregated_freelist_free_raw, h]

/-- A free of a block whose committed size is exactly a class size pushes the
    block onto that class list. -/
theorem seg_free_raw_class {m : seg_mach} {addr c r i : Nat}
    (hi : get_size_class c = some i) (hc : c = size_class i) :
    segregated_freelist_free_raw m addr BLOCK_MAGIC c r =
      { m with stats := stats_on_free m.stats c r
               st := { m.st with
                       free_lists := Function.update m.st.free_lists i
                         (addr :: m.st.free_lists i) } } := by
  simp [segregated_freelist_free_raw, hi, if_pos hc]

/-- A free of a block whose committed size matches a class but not exactly
    goes to the large-block list. -/
theorem seg_free_raw_off_class {m : seg_mach} {addr c r i : Nat}
    (hi : get_size_class c = some i) (hc : c ≠ size_class i) :
    segregated_freelist_free_raw m addr BLOCK_MAGIC c r =
      { m with stats := stats_on_free m.stats c r
               st := { m.st with large_blocks := (addr, c) :: m.st.large_blocks } } := by
  simp [segregated_freelist_free_raw, hi, if_neg hc]

/-- A free of a block above all classes goes to the large-block list. -/
theorem seg_free_raw_no_class {m : seg_mach} {addr c r : Nat}
    (hi : get_size_class c = none) :
    segregated_freelist_free_raw m addr BLOCK_MAGIC c r =
      { m with stats := stats_on_free m.stats c r
               st := { m.st with large_blocks := (addr, c) :: m.st.large_blocks } } := by
  simp [segregated_freelist_free_raw, hi]

theorem seg_align_init {region region_size : Nat} {st : seg_state}
    (h : (segregated_freelist_init region region_size).1 = some st) :
    seg_align ⟨st, stats_init st.heap_size, []⟩ := by
  obtain ⟨hheap, hfl, hlb, _⟩ := seg_init_spec h
  refine ⟨?_, ?_, ?_⟩
  · intro i a ha; rw [hfl] at ha; cases ha
  · intro e he
    rw [hlb] at he
    rcases List.mem_singleton.mp he with rfl
    exact hheap
  · intro b hb; cases hb

theorem seg_align_alloc {m : seg_mach} (s : Nat) (hA : seg_align m) :
    seg_align (segregated_freelist_alloc m s).1 := by
  rcases hres : segregated_freelist_alloc m s with ⟨m2, res⟩
  show seg_align m2
  cases res with
  | none =>
    have hshape := seg_alloc_fail hres
    by_cases hs : s = 0
    · rw [if_pos hs] at hshape; subst hshape; exact hA
    · rw [if_neg hs] at hshape; subst hshape
      exact ⟨hA.fa, hA.la, hA.va⟩
  | some p =>
    obtain ⟨hs, a, hp, hlive, hstats, hcases⟩ := seg_alloc_success hres
    rcases hcases with ⟨i, rest, hgc, hfl, hst⟩ | ⟨i, sz, rest, hgc, hfl, hcut, hst⟩ |
      ⟨sz, rest, hgc, hcut, hst⟩
    · have ha : a % 8 = 0 := hA.fa i a (by rw [hfl]; exact List.mem_cons_self _ _)
      refine ⟨?_, ?_, ?_⟩
      · intro j x hx
        rw [hst] at hx
        dsimp only at hx
        by_cases hj : j = i
        · subst hj
          simp only [Function.update_same] at hx
          exact hA.fa j x (by rw [hfl]; exact List.mem_cons_of_mem _ hx)
        · rw [Function.update_noteq hj] at hx
          exact hA.fa j x hx
      · intro e he; rw [hst] at he; dsimp only at he; exact hA.la e he
      · intro b hb
        rw [hlive] at hb
        rcases List.mem_cons.mp hb with rfl | hb
        · exact ha
        · exact hA.va b hb
    · obtain ⟨hfit, hmem, hperm⟩ := cut_first_fit_spec hcut
      have ha : a % 8 = 0 := hA.la (a, sz) hmem
      have hcl := get_size_class_spec hgc
      refine ⟨?_, ?_, ?_⟩
      · intro j x hx; rw [hst] at hx; dsimp only at hx; exact hA.fa j x hx
      · intro e he
        rw [hst] at he
        dsimp only at he
        have hrest : ∀ e2 ∈ rest, e2.1 % 8 = 0 := by
          intro e2 he2
          exact hA.la e2 (hperm.mem_iff.mpr (List.mem_cons_of_mem _ he2))
        by_cases hrem : size_class 0 ≤ sz - size_class i
        · rw [if_pos hrem] at he
          rcases List.mem_cons.mp he with rfl | he
          · simp only
            omega
          · exact hrest e he
        · rw [if_neg hrem] at he
          exact hrest e he
      · intro b hb
        rw [hlive] at hb
        rcases List.mem_cons.mp hb with rfl | hb
        · exact ha
        · exact hA.va b hb
    · obtain ⟨hfit, hmem, hperm⟩ := cut_first_fit_spec hcut
      have ha : a % 8 = 0 := hA.la (a, sz) hmem
      have htot := align_size_mod8 ((s + SEG_HEADER_SIZE) % W)
      refine ⟨?_, ?_, ?_⟩
      · intro j x hx; rw [hst] at hx; dsimp only at hx; exact hA.fa j x hx
      · intro e he
        rw [hst] at he
        dsimp only at he
        have hrest : ∀ e2 ∈ rest, e2.1 % 8 = 0 := by
          intro e2 he2
          exact hA.la e2 (hperm.mem_iff.mpr (List.mem_cons_of_mem _ he2))
        by_cases hrem : size_class 0 ≤ sz - seg_total s
        · rw [if_pos hrem] at he
          rcases List.mem_cons.mp he with rfl | he
          · simp only [seg_total]
            omega
          · exact hrest e he
        · rw [if_neg hrem] at he
          exact hrest e he
      · intro b hb
        rw [hlive] at hb
        rcases List.mem_cons.mp hb with rfl | hb
        · exact ha
        · exact hA.va b hb

theorem seg_align_free {m : seg_mach} {b : seg_block} (hA : seg_align m)
    (hb : b ∈ m.live) : seg_align (segregated_freelist_free_valid m b) := by
  have hba : b.addr % 8 = 0 := hA.va b hb
  have herase : ∀ x ∈ m.live.erase b, x ∈ m.live := fun x hx => List.mem_of_mem_erase hx
  unfold segregated_freelist_free_valid
  cases hgc : get_size_class b.committed with
  | some i =>
    by_cases hceq : b.committed = size_class i
    · rw [seg_free_raw_class hgc hceq]
      refine ⟨?_, ?_, ?_⟩
      · intro j x hx
        simp only at hx
        by_cases hj : j = i
        · subst hj
          simp only [Function.update_same] at hx
          rcases List.mem_cons.mp hx with rfl | hx
          · exact hba
          · exact hA.fa j x hx
        · rw [Function.update_noteq hj] at hx
          exact hA.fa j x hx
      · intro e he; exact hA.la e he
      · intro x hx; exact hA.va x (herase x hx)
    · rw [seg_free_raw_off_class hgc hceq]
      refine ⟨?_, ?_, ?_⟩
      · intro j x hx; exact hA.fa j x hx
      · intro e he
        rcases List.mem_cons.mp he with rfl | he
        · exact hba
        · exact hA.la e he
      · intro x hx; exact hA.va x (herase x hx)
  | none =>
    rw [seg_free_raw_no_class hgc]
    refine ⟨?_, ?_, ?_⟩
    · intro j x hx; exact hA.fa j x hx
    · intro e he
      rcases List.mem_cons.mp he with rfl | he
      · exact hba
      · exact hA.la e he
    · intro x hx; exact hA.va x (herase x hx)

/-- Every reachable segregated machine has 8-aligned block addresses. -/
theorem seg_reach_align {m : seg_mach} (h : seg_reach m) : seg_align m := by
  induction h with
  | created region region_size st hinit => exact seg_align_init hinit
  | stepped_alloc m s h ih => exact seg_align_alloc s ih
  | stepped_free m b h hb ih => exact seg_align_free ih hb

/-- A successful allocation consumes at least seg_total s bytes of free-list
    capacity, and never touches the heap bounds. -/
theorem seg_alloc_free_bytes {m : seg_mach} {s : Nat} {m2 : seg_mach} {p : Nat}
    (h : segregated_freelist_alloc m s = (m2, some p)) :
    seg_free_bytes m2.st + seg_total s ≤ seg_free_bytes m.st ∧
      m2.st.heap_size = m.st.heap_size := by
  obtain ⟨hs, a, hp, hlive, hstats, hcases⟩ := seg_alloc_success h
  rcases hcases with ⟨i, rest, hgc, hfl, hst⟩ | ⟨i, sz, rest, hgc, hfl, hcut, hst⟩ |
    ⟨sz, rest, hgc, hcut, hst⟩
  · obtain ⟨hi8, htot, h16, hle2048, hmod⟩ := get_size_class_spec hgc
    have hupd := sum_range_update (n := 8) hi8 m.st.free_lists rest
      (fun i2 l => l.length * size_class i2)
    rw [hfl] at hupd
    simp only [List.length_cons, add_mul, one_mul] at hupd
    rw [hst]
    unfold seg_free_bytes
    dsimp only
    refine ⟨?_, by trivial⟩
    omega
  · obtain ⟨hi8, htot, h16, hle2048, hmod⟩ := get_size_class_spec hgc
    obtain ⟨hfit, hmem, hperm⟩ := cut_first_fit_spec hcut
    have hsum : (m.st.large_blocks.map (fun e => e.2)).sum
        = sz + (rest.map (fun e => e.2)).sum := by
      simpa using (hperm.map (fun e => e.2)).sum_eq
    rw [hst]
    unfold seg_free_bytes
    dsimp only
    refine ⟨?_, by trivial⟩
    by_cases hrem : size_class 0 ≤ sz - size_class i
    · rw [if_pos hrem]
      simp only [List.map_cons, List.sum_cons]
      rw [hsum]
      omega
    · rw [if_neg hrem]
      rw [hsum]
      omega
  · obtain ⟨hfit, hmem, hperm⟩ := cut_first_fit_spec hcut
    have hsum : (m.st.large_blocks.map (fun e => e.2)).sum
        = sz + (rest.map (fun e => e.2)).sum := by
      simpa using (hperm.map (fun e => e.2)).sum_eq
    rw [hst]
    unfold seg_free_bytes
    dsimp only
    refine ⟨?_, by trivial⟩
    by_cases hrem : size_class 0 ≤ sz - seg_total s
    · rw [if_pos hrem]
      simp only [List.map_cons, List.sum_cons]
      rw [hsum]
      omega
    · rw [if_neg hrem]
      rw [hsum]
      omega

theorem seg_inv_init {region region_size : Nat} {st : seg_state}
    (hW : region_size < W)
    (h : (segregated_freelist_init region region_size).1 = some st) :
    seg_inv ⟨st, stats_init st.heap_size, []⟩ := by
  obtain ⟨hheap, hfl, hlb, hle⟩ := seg_init_spec h
  refine ⟨rfl, rfl, (by intro b hb; cases hb), ?_, (by show st.heap_size < W; omega), rfl⟩
  unfold seg_free_bytes
  rw [hfl, hlb]
  simp

theorem seg_inv_alloc {m : seg_mach} {s : Nat} (hI : seg_inv m) (hs31 : s + 31 < W) :
    seg_inv (segregated_freelist_alloc m s).1 := by
  rcases hres : segregated_freelist_alloc m s with ⟨m2, res⟩
  show seg_inv m2
  cases res with
  | none =>
    have hshape := seg_alloc_fail hres
    by_cases hs : s = 0
    · rw [if_pos hs] at hshape; subst hshape; exact hI
    · rw [if_neg hs] at hshape; subst hshape
      exact ⟨hI.ca, hI.cr, hI.rc, hI.acc, hI.hsW, hI.hs_eq⟩
  | some p =>
    obtain ⟨hfb, hhs⟩ := seg_alloc_free_bytes hres
    obtain ⟨hs0, a, hp, hlive, hstats, _⟩ := seg_alloc_success hres
    obtain ⟨hts, htub⟩ := seg_total_bounds hs31
    have hca : m.stats.current_allocated + seg_total s ≤ m.st.heap_size := by
      have h1 := hI.acc
      have h2 := hI.ca
      omega
    have hcr : m.stats.current_requested ≤ m.stats.current_allocated := by
      rw [hI.ca, hI.cr]
      exact List.sum_le_sum hI.rc
    have hwa : wadd m.stats.current_allocated (seg_total s)
        = m.stats.current_allocated + seg_total s :=
      wadd_eq (by have := hI.hsW; omega)
    have hwr : wadd m.stats.current_requested s = m.stats.current_requested + s :=
      wadd_eq (by have := hI.hsW; simp [SEG_HEADER_SIZE] at hts; omega)
    refine ⟨?_, ?_, ?_, ?_, ?_, ?_⟩
    · rw [hstats, hlive]
      show wadd m.stats.current_allocated (seg_total s) = _
      rw [hwa, hI.ca]
      simp [Nat.add_comm]
    · rw [hstats, hlive]
      show wadd m.stats.current_requested s = _
      rw [hwr, hI.cr]
      simp [Nat.add_comm]
    · rw [hlive]
      intro b hb
      rcases List.mem_cons.mp hb with rfl | hb
      · show s ≤ seg_total s
        have h24 : SEG_HEADER_SIZE = 24 := rfl
        omega
      · exact hI.rc b hb
    · rw [hlive, hhs]
      simp only [List.map_cons, List.sum_cons]
      have := hI.acc
      omega
    · rw [hhs]; exact hI.hsW
    · rw [hstats, hhs]
      show m.stats.heap_size = _
      exact hI.hs_eq

/-- A valid free restores the invariant and decrements the byte counters by
    exactly the amounts the paired allocation added. -/
theorem seg_free_valid_spec {m : seg_mach} {b : seg_block} (hI : seg_inv m)
    (hb : b ∈ m.live) :
    seg_inv (segregated_freelist_free_valid m b) ∧
    (segregated_freelist_free_valid m b).stats.current_allocated + b.committed
        = m.stats.current_allocated ∧
    (segregated_freelist_free_valid m b).stats.current_requested + b.requested
        = m.stats.current_requested := by
  have hsumc : (m.live.map (fun b2 => b2.committed)).sum
      = b.committed + ((m.live.erase b).map (fun b2 => b2.committed)).sum :=
    sum_map_erase_of_mem (fun b2 => b2.committed) hb
  have hsumr : (m.live.map (fun b2 => b2.requested)).sum
      = b.requested + ((m.live.erase b).map (fun b2 => b2.requested)).sum :=
    sum_map_erase_of_mem (fun b2 => b2.requested) hb
  have hcaW : m.stats.current_allocated < W := by
    have h1 := hI.acc; have h2 := hI.ca; have h3 := hI.hsW; omega
  have hcrW : m.stats.current_requested < W := by
    have h2 := hI.cr
    have h4 : (m.live.map (fun b2 => b2.requested)).sum
        ≤ (m.live.map (fun b2 => b2.committed)).sum := List.sum_le_sum hI.rc
    have h1 := hI.acc; have h3 := hI.hsW; omega
  have hcle : b.committed ≤ m.stats.current_allocated := by rw [hI.ca]; omega
  have hrle : b.requested ≤ m.stats.current_requested := by rw [hI.cr]; omega
  have hwc : wsub m.stats.current_allocated b.committed
      = m.stats.current_allocated - b.committed := wsub_eq hcaW hcle
  have hwr : wsub m.stats.current_requested b.requested
      = m.stats.current_requested - b.requested := wsub_eq hcrW hrle
  have hrcE : ∀ x ∈ m.live.erase b, x.requested ≤ x.committed :=
    fun x hx => hI.rc x (List.mem_of_mem_erase hx)
  -- the machine after the free, in each of the three push shapes
  have main : ∀ st2 : seg_state,
      segregated_freelist_free_valid m b =
        { st := st2, stats := stats_on_free m.stats b.committed b.requested
          live := m.live.erase b } →
      seg_free_bytes st2 = seg_free_bytes m.st + b.committed →
      st2.heap_size = m.st.heap_size →
      seg_inv (segregated_freelist_free_valid m b) ∧
      (segregated_freelist_free_valid m b).stats.current_allocated + b.committed
          = m.stats.current_allocated ∧
      (segregated_freelist_free_valid m b).stats.current_requested + b.requested
          = m.stats.current_requested := by
    intro st2 hshape hfb hhs
    rw [hshape]
    refine ⟨⟨?_, ?_, hrcE, ?_, ?_, ?_⟩, ?_, ?_⟩
    · show wsub m.stats.current_allocated b.committed
          = ((m.live.erase b).map (fun b2 => b2.committed)).sum
      rw [hwc, hI.ca]
      omega
    · show wsub m.stats.current_requested b.requested
          = ((m.live.erase b).map (fun b2 => b2.requested)).sum
      rw [hwr, hI.cr]
      omega
    · show seg_free_bytes st2 + ((m.live.erase b).map (fun b2 => b2.committed)).sum
          ≤ st2.heap_size
      rw [hfb, hhs]
      have h1 := hI.acc
      have h2 := hI.ca
      omega
    · show st2.heap_size < W
      rw [hhs]; exact hI.hsW
    · show m.stats.heap_size = st2.heap_size
      rw [hhs]; exact hI.hs_eq
    · show wsub m.stats.current_allocated b.committed + b.committed
          = m.stats.current_allocated
      rw [hwc]
      omega
    · show wsub m.stats.current_requested b.requested + b.requested
          = m.stats.current_requested
      rw [hwr]
      omega
  cases hgc : get_size_class b.committed with
  | some i =>
    by_cases hceq : b.committed = size_class i
    · obtain ⟨hi8, _, _, _, _⟩ := get_size_class_spec hgc
      refine main
        { m.st with
          free_lists := Function.update m.st.free_lists i (b.addr :: m.st.free_lists i) }
        ?_ ?_ ?_
      · unfold segregated_freelist_free_valid
        rw [seg_free_raw_class hgc hceq]
      · have hupd := sum_range_update (n := 8) hi8 m.st.free_lists
          (b.addr :: m.st.free_lists i) (fun i2 l => l.length * size_class i2)
        simp only [List.length_cons, add_mul, one_mul] at hupd
        unfold seg_free_bytes
        dsimp only
        omega
      · rfl
    · refine main { m.st with
        large_blocks := (b.addr, b.committed) :: m.st.large_blocks } ?_ ?_ ?_
      · unfold segregated_freelist_free_valid
        rw [seg_free_raw_off_class hgc hceq]
      · unfold seg_free_bytes
        dsimp only
        simp only [List.map_cons, List.sum_cons]
        omega
      · rfl
  | none =>
    refine main { m.st with
      large_blocks := (b.addr, b.committed) :: m.st.large_blocks } ?_ ?_ ?_
    · unfold segregated_freelist_free_valid
      rw [seg_free_raw_no_class hgc]
    · unfold seg_free_bytes
      dsimp only
      simp only [List.map_cons, List.sum_cons]
      omega
    · rfl

/-- Every ok-reachable segregated machine satisfies the accounting invariant. -/
theorem seg_reach_ok_inv {m : seg_mach} (h : seg_reach_ok m) : seg_inv m := by
  induction h with
  | created region region_size st hW hinit => exact seg_inv_init hW hinit
  | stepped_alloc m s h hs ih => exact seg_inv_alloc ih hs
  | stepped_free m b h hb ih => exact (seg_free_valid_spec ih hb).1

/-! ## XOR-buddy arithmetic -/

theorem xor_mul_pow (a b k : Nat) : (a * 2 ^ k) ^^^ (b * 2 ^ k) = (a ^^^ b) * 2 ^ k := by
  rw [← Nat.shiftLeft_eq a k, ← Nat.shiftLeft_eq b k, ← Nat.shiftLeft_eq (a ^^^ b) k]
  apply Nat.eq_of_testBit_eq
  intro i
  simp only [Nat.testBit_xor, Nat.testBit_shiftLeft]
  by_cases h : k ≤ i <;> simp [h]

theorem xor_one (c : Nat) : c ^^^ 1 = if c % 2 = 0 then c + 1 else c - 1 := by
  rcases Nat.even_or_odd c with ⟨m, hm⟩ | ⟨m, hm⟩
  · have hb := Nat.xor_bit false m true 0
    simp only [Nat.bit_false, Nat.bit_true, Bool.bne_false] at hb
    have hb2 : 2 * m ^^^ 1 = 2 * m + 1 := by
      simpa using hb
    subst hm
    rw [show m + m = 2 * m by ring, hb2]
    simp [Nat.mul_mod_right]
  · have hb := Nat.xor_bit true m true 0
    simp only [Nat.bit_false, Nat.bit_true] at hb
    have hb2 : 2 * m + 1 ^^^ 1 = 2 * m := by
      simpa using hb
    subst hm
    rw [show 2 * m + 1 ^^^ 1 = 2 * m from hb2]
    have : (2 * m + 1) % 2 = 1 := by omega
    simp [this]

theorem xor_two_pow_of_dvd {x k : Nat} (h : 2 ^ k ∣ x) :
    x ^^^ 2 ^ k = if x / 2 ^ k % 2 = 0 then x + 2 ^ k else x - 2 ^ k := by
  obtain ⟨q, rfl⟩ := h
  have hp : 0 < 2 ^ k := Nat.pos_pow_of_pos k (by norm_num)
  have hq : 2 ^ k * q = q * 2 ^ k := Nat.mul_comm _ _
  have key : q * 2 ^ k ^^^ 2 ^ k = (q ^^^ 1) * 2 ^ k := by
    nth_rewrite 2 [show (2 : Nat) ^ k = 1 * 2 ^ k from (Nat.one_mul _).symm]
    exact xor_mul_pow q 1 k
  have hdiv : 2 ^ k * q / 2 ^ k = q := Nat.mul_div_cancel_left q hp
  rw [hq] at hdiv
  rw [hq, key, hdiv, xor_one q]
  by_cases hqe : q % 2 = 0
  · rw [if_pos hqe, if_pos hqe, Nat.add_mul, Nat.one_mul]
  · rw [if_neg hqe, if_neg hqe]
    rw [Nat.sub_mul, Nat.one_mul]

theorem xor_two_pow_ne (x k : Nat) : x ^^^ 2 ^ k ≠ x := by
  intro h
  have h0 : x ^^^ 2 ^ k = x ^^^ 0 := by simpa using h
  have h2 : (2 : Nat) ^ k = 0 := Nat.xor_right_injective h0
  have hp : 0 < 2 ^ k := Nat.pos_pow_of_pos k (by norm_num)
  omega

theorem dvd_xor_two_pow {x k : Nat} (h : 2 ^ k ∣ x) : 2 ^ k ∣ (x ^^^ 2 ^ k) := by
  rw [xor_two_pow_of_dvd h]
  split_ifs
  · exact Nat.dvd_add h dvd_rfl
  · exact Nat.dvd_sub' h dvd_rfl

theorem xor_two_pow_invol (x k : Nat) : (x ^^^ 2 ^ k) ^^^ 2 ^ k = x :=
  Nat.xor_cancel_right _ _

theorem ivl_le_one (a k p : Nat) : ivl a k p ≤ 1 := by
  unfold ivl; split_ifs <;> omega

theorem ivl_self (a k : Nat) : ivl a k a = 1 := by
  have := Nat.pos_pow_of_pos k (show 0 < 2 by norm_num)
  unfold ivl
  rw [if_pos ⟨le_refl a, by omega⟩]

theorem ivl_split (a k p : Nat) : ivl a (k + 1) p = ivl a k p + ivl (a + 2 ^ k) k p := by
  have hp : (2 : Nat) ^ (k + 1) = 2 ^ k + 2 ^ k := by rw [pow_succ]; ring
  unfold ivl
  rw [hp]
  split_ifs <;> omega

theorem lcnt_cons (x : Nat) (l : List Nat) (k p : Nat) :
    lcnt (x :: l) k p = ivl x k p + lcnt l k p := by
  simp [lcnt]

theorem lcnt_erase {x : Nat} {l : List Nat} (h : x ∈ l) (k p : Nat) :
    lcnt l k p = ivl x k p + lcnt (l.erase x) k p :=
  sum_map_erase_of_mem (fun a => ivl a k p) h

theorem lcnt_ge_of_mem {x : Nat} {l : List Nat} (h : x ∈ l) (k p : Nat) :
    ivl x k p ≤ lcnt l k p := by
  rw [lcnt_erase h]
  omega

theorem fcnt_update {fl : Nat → List Nat} {k : Nat} (hk : k < 32) (L : List Nat) (p : Nat) :
    fcnt (Function.update fl k L) p + lcnt (fl k) k p = fcnt fl p + lcnt L k p :=
  sum_range_update hk fl L (fun k2 l => lcnt l k2 p)

theorem fcnt_push {fl : Nat → List Nat} {k : Nat} (hk : k < 32) (x p : Nat) :
    fcnt (push_free fl k x) p = fcnt fl p + ivl x k p := by
  have h := @fcnt_update fl k hk (x :: fl k) p
  rw [lcnt_cons] at h
  unfold push_free
  omega

theorem fcnt_pop {fl : Nat → List Nat} {k : Nat} (hk : k < 32) {x : Nat} {rest : List Nat}
    (hl : fl k = x :: rest) (p : Nat) :
    fcnt fl p = fcnt (Function.update fl k rest) p + ivl x k p := by
  have h := @fcnt_update fl k hk rest p
  rw [hl, lcnt_cons] at h
  omega

theorem fcnt_erase {fl : Nat → List Nat} {k : Nat} (hk : k < 32) {x : Nat}
    (hx : x ∈ fl k) (p : Nat) :
    fcnt fl p = fcnt (Function.update fl k ((fl k).erase x)) p + ivl x k p := by
  have h := @fcnt_update fl k hk ((fl k).erase x) p
  rw [lcnt_erase hx] at h
  omega

theorem fcnt_ge_of_mem {fl : Nat → List Nat} {k : Nat} (hk : k < 32) {x : Nat}
    (hx : x ∈ fl k) (p : Nat) : ivl x k p ≤ fcnt fl p := by
  calc ivl x k p ≤ lcnt (fl k) k p := lcnt_ge_of_mem hx k p
    _ ≤ fcnt fl p := Finset.single_le_sum (f := fun k2 => lcnt (fl k2) k2 p)
        (fun i _ => Nat.zero_le _) (Finset.mem_range.mpr hk)

theorem vcnt_cons (b : buddy_block) (live : List buddy_block) (p : Nat) :
    vcnt (b :: live) p = ivl b.addr b.order p + vcnt live p := by
  simp [vcnt]

theorem vcnt_erase {b : buddy_block} {live : List buddy_block} (h : b ∈ live) (p : Nat) :
    vcnt live p = ivl b.addr b.order p + vcnt (live.erase b) p := by
  unfold vcnt
  exact sum_map_erase_of_mem (fun b2 => ivl b2.addr b2.order p) h

theorem vcnt_ge_of_mem {b : buddy_block} {live : List buddy_block} (h : b ∈ live) (p : Nat) :
    ivl b.addr b.order p ≤ vcnt live p := by
  rw [vcnt_erase h]
  omega

/-- Swap a finite sum over points with a list sum. -/
theorem sum_points_list {α : Type} (P : Finset Nat) (l : List α) (g : Nat → α → Nat) :
    ∑ p ∈ P, (l.map (g p)).sum = (l.map (fun x => ∑ p ∈ P, g p x)).sum := by
  induction l with
  | nil => simp
  | cons x t ih =>
    simp only [List.map_cons, List.sum_cons]
    rw [Finset.sum_add_distrib, ih]

/-- A block interval inside [B, M) contributes exactly its size. -/
theorem sum_ivl_interval {B M a k : Nat} (h1 : B ≤ a) (h2 : a + 2 ^ k ≤ M) :
    ∑ p ∈ Finset.Ico B M, ivl a k p = 2 ^ k := by
  have hsub : Finset.Ico a (a + 2 ^ k) ⊆ Finset.Ico B M := by
    intro q hq
    rw [Finset.mem_Ico] at hq ⊢
    omega
  rw [← Finset.sum_subset hsub]
  · have hone : ∀ q ∈ Finset.Ico a (a + 2 ^ k), ivl a k q = 1 := by
      intro q hq
      rw [Finset.mem_Ico] at hq
      unfold ivl
      rw [if_pos ⟨hq.1, hq.2⟩]
    rw [Finset.sum_congr rfl hone]
    simp [Nat.card_Ico]
  · intro q hq hq2
    rw [Finset.mem_Ico] at hq
    rw [Finset.mem_Ico] at hq2
    unfold ivl
    rw [if_neg (by omega)]

/-! ## Buddy allocator: shape lemmas -/

theorem buddy_order_ge_min (st : buddy_state) (s : Nat) :
    st.min_order ≤ buddy_order st s := by
  unfold buddy_order
  dsimp only
  split_ifs with h <;> omega

theorem find_free_go_spec {fl : Nat → List Nat} :
    ∀ n k f, find_free_go fl n k = some f → k ≤ f ∧ f < k + n ∧ fl f ≠ [] := by
  intro n
  induction n with
  | zero => intro k f h; cases h
  | succ n ih =>
    intro k f h
    unfold find_free_go at h
    cases hfl : fl k with
    | nil =>
      rw [hfl] at h
      obtain ⟨h1, h2, h3⟩ := ih (k + 1) f h
      exact ⟨by omega, by omega, h3⟩
    | cons x t =>
      rw [hfl] at h
      obtain rfl : k = f := Option.some.inj h
      exact ⟨le_refl _, by omega, by rw [hfl]; simp⟩

theorem find_free_order_spec {fl : Nat → List Nat} {maxo k f : Nat}
    (h : find_free_order fl maxo k = some f) :
    k ≤ f ∧ f ≤ maxo ∧ fl f ≠ [] := by
  unfold find_free_order at h
  obtain ⟨h1, h2, h3⟩ := find_free_go_spec _ _ _ h
  exact ⟨h1, by omega, h3⟩

/-- A failing (or size-zero) buddy allocation touches only the failure
    counter. -/
theorem buddy_alloc_fail {m : buddy_mach} {s : Nat} {m2 : buddy_mach}
    (h : buddy_allocator_alloc m s = (m2, none)) :
    m2 = if s = 0 then m else { m with stats := stats_on_fail m.stats } := by
  by_cases hs : s = 0
  · simp only [buddy_allocator_alloc, if_pos hs] at h
    simp [if_pos hs, (Prod.mk.injEq _ _ _ _).mp h]
  simp only [buddy_allocator_alloc, if_neg hs] at h
  rw [if_neg hs]
  by_cases hmax : m.st.max_order < buddy_order m.st s
  · rw [if_pos hmax] at h
    exact ((Prod.mk.injEq _ _ _ _).mp h).1.symm
  rw [if_neg hmax] at h
  cases hff : find_free_order m.st.free_lists m.st.max_order (buddy_order m.st s) with
  | none =>
    simp only [hff] at h
    exact ((Prod.mk.injEq _ _ _ _).mp h).1.symm
  | some found =>
    simp only [hff] at h
    cases hfl : m.st.free_lists found with
    | nil =>
      simp only [hfl] at h
      exact ((Prod.mk.injEq _ _ _ _).mp h).1.symm
    | cons block rest =>
      simp only [hfl] at h
      cases h

/-- Full description of a successful buddy allocation. -/
theorem buddy_alloc_success {m : buddy_mach} {s : Nat} {m2 : buddy_mach} {p : Nat}
    (h : buddy_allocator_alloc m s = (m2, some p)) :
    s ≠ 0 ∧
    ∃ block rest found,
      p = block + BUDDY_HEADER_SIZE ∧
      buddy_order m.st s ≤ found ∧ found ≤ m.st.max_order ∧
      m.st.free_lists found = block :: rest ∧
      m2.stats = stats_on_alloc m.stats (order_to_size (buddy_order m.st s)) s ∧
      m2.live = ⟨block, buddy_order m.st s, s⟩ :: m.live ∧
      m2.st = { m.st with free_lists := split_loop block (Function.update m.st.free_lists found rest) found (buddy_order m.st s) } := by
  by_cases hs : s = 0
  · simp only [buddy_allocator_alloc, if_pos hs] at h
    cases h
  refine ⟨hs, ?_⟩
  simp only [buddy_allocator_alloc, if_neg hs] at h
  by_cases hmax : m.st.max_order < buddy_order m.st s
  · rw [if_pos hmax] at h
    cases h
  rw [if_neg hmax] at h
  cases hff : find_free_order m.st.free_lists m.st.max_order (buddy_order m.st s) with
  | none => simp only [hff] at h; cases h
  | some found =>
    simp only [hff] at h
    obtain ⟨hge, hle, _⟩ := find_free_order_spec hff
    cases hfl : m.st.free_lists found with
    | nil => simp only [hfl] at h; cases h
    | cons block rest =>
      simp only [hfl, Prod.mk.injEq, Option.some.injEq] at h
      obtain ⟨rfl, rfl⟩ := h
      exact ⟨block, rest, found, rfl, hge, hle, hfl, rfl, rfl, rfl⟩

theorem buddy_free_raw_magic {m : buddy_mach} {addr mg order r : Nat}
    (h : mg ≠ BUDDY_MAGIC) : buddy_allocator_free_raw m addr mg order r = m := by
  simp [buddy_allocator_free_raw, h]

theorem buddy_free_raw_bad_order {m : buddy_mach} {addr order r : Nat}
    (h : order < m.st.min_order ∨ m.st.max_order < order) :
    buddy_allocator_free_raw m addr BUDDY_MAGIC order r = m := by
  simp [buddy_allocator_free_raw, h]

theorem buddy_free_raw_out_of_range {m : buddy_mach} {addr order r : Nat}
    (horder : ¬(order < m.st.min_order ∨ m.st.max_order < order))
    (hrange : addr < m.st.base ∨ m.st.base + m.st.heap_size ≤ addr) :
    buddy_allocator_free_raw m addr BUDDY_MAGIC order r =
      { m with stats := stats_on_free m.stats (order_to_size order) r } := by
  simp [buddy_allocator_free_raw, horder, hrange]

theorem buddy_free_raw_main {m : buddy_mach} {addr order r : Nat}
    (horder : ¬(order < m.st.min_order ∨ m.st.max_order < order))
    (hrange : ¬(addr < m.st.base ∨ m.st.base + m.st.heap_size ≤ addr)) :
    buddy_allocator_free_raw m addr BUDDY_MAGIC order r =
      { m with stats := stats_on_free m.stats (order_to_size order) r
               st := { m.st with free_lists := push_free (coalesce_loop m.st.free_lists m.st.base m.st.max_order addr order).1 (coalesce_loop m.st.free_lists m.st.base m.st.max_order addr order).2.2 (coalesce_loop m.st.free_lists m.st.base m.st.max_order addr order).2.1 } } := by
  simp [buddy_allocator_free_raw, horder, hrange]

/-- Any block participating in an exact cover of the heap lies inside it. -/
theorem block_within {fl : Nat → List Nat} {live : List buddy_block}
    {base maxo a k : Nat}
    (cover : ∀ p, fcnt fl p + vcnt live p = ivl base maxo p)
    (hge : ∀ p, ivl a k p ≤ fcnt fl p + vcnt live p) :
    base ≤ a ∧ a + 2 ^ k ≤ base + 2 ^ maxo := by
  have h1 := hge a
  rw [cover a, ivl_self] at h1
  have h2 : ivl base maxo a = 1 := by
    have := ivl_le_one base maxo a
    omega
  unfold ivl at h2
  split_ifs at h2 with hc
  · constructor
    · exact hc.1
    · by_contra hlt
      push_neg at hlt
      have hp := hge (base + 2 ^ maxo)
      rw [cover _] at hp
      have hiv : ivl a k (base + 2 ^ maxo) = 1 := by
        unfold ivl
        rw [if_pos ⟨by omega, by omega⟩]
      have hzero : ivl base maxo (base + 2 ^ maxo) = 0 := by
        unfold ivl
        rw [if_neg (by omega)]
      omega

theorem free_within {m : buddy_mach} (I : buddy_sinv m) {k a : Nat}
    (hk : k < 32) (ha : a ∈ m.st.free_lists k) :
    a + 2 ^ k ≤ m.st.base + 2 ^ m.st.max_order :=
  (block_within I.cover (fun p => le_trans (fcnt_ge_of_mem hk ha p)
    (Nat.le_add_right _ _))).2

theorem live_within {m : buddy_mach} (I : buddy_sinv m) {b : buddy_block}
    (hb : b ∈ m.live) :
    b.addr + 2 ^ b.order ≤ m.st.base + 2 ^ m.st.max_order :=
  (block_within I.cover (fun p => le_trans (vcnt_ge_of_mem hb p)
    (Nat.le_add_left _ _))).2

/-- Adding the lower buddy bit to an address aligned one order higher and
    removing it again by xor. -/
theorem xor_plus_pow {x f : Nat} (h : 2 ^ (f + 1) ∣ x) :
    (x + 2 ^ f) ^^^ 2 ^ f = x := by
  have hdvd : 2 ^ f ∣ x := dvd_trans (pow_dvd_pow 2 (Nat.le_succ f)) h
  have hdvd2 : (2 : Nat) ^ f ∣ x + 2 ^ f := Nat.dvd_add hdvd dvd_rfl
  rw [xor_two_pow_of_dvd hdvd2]
  obtain ⟨q, rfl⟩ := h
  have hpf : 0 < (2 : Nat) ^ f := Nat.pos_pow_of_pos f (by norm_num)
  have hrw : 2 ^ (f + 1) * q + 2 ^ f = 2 ^ f * (2 * q + 1) := by
    rw [pow_succ]; ring
  have hq : (2 ^ (f + 1) * q + 2 ^ f) / 2 ^ f = 2 * q + 1 := by
    rw [hrw, Nat.mul_div_cancel_left _ hpf]
  rw [hq]
  have : (2 * q + 1) % 2 = 1 := by omega
  rw [if_neg (by omega)]
  omega

/-- Buddy-address computation is an involution over in-heap addresses. -/
theorem buddy_addr_invol {base a b k : Nat} (ha : base ≤ a) (hb : base ≤ b)
    (h : base + ((a - base) ^^^ 2 ^ k) = b) :
    base + ((b - base) ^^^ 2 ^ k) = a := by
  have h2 : (a - base) ^^^ 2 ^ k = b - base := by omega
  rw [← h2, xor_two_pow_invol]
  omega

/-- Merging a block with its xor-buddy yields the parent block: the parent
    is the smaller of the two addresses, it is aligned one order higher, and
    its interval is the disjoint union of the two halves. -/
theorem merge_pair {base b order : Nat} (hb : base ≤ b)
    (hdvd : 2 ^ order ∣ (b - base)) :
    base ≤ min b (base + ((b - base) ^^^ 2 ^ order)) ∧
    2 ^ (order + 1) ∣ (min b (base + ((b - base) ^^^ 2 ^ order)) - base) ∧
    (∀ p, ivl (min b (base + ((b - base) ^^^ 2 ^ order))) (order + 1) p
        = ivl b order p + ivl (base + ((b - base) ^^^ 2 ^ order)) order p) := by
  have hpo : 0 < (2 : Nat) ^ order := Nat.pos_pow_of_pos order (by norm_num)
  obtain ⟨q, hq⟩ := hdvd
  have hqd : (b - base) / 2 ^ order = q := by
    rw [hq, Nat.mul_div_cancel_left _ hpo]
  rw [xor_two_pow_of_dvd ⟨q, hq⟩, hqd]
  by_cases hqe : q % 2 = 0
  · rw [if_pos hqe]
    have hbd : base + (b - base + 2 ^ order) = b + 2 ^ order := by omega
    have hmin : min b (b + 2 ^ order) = b := by omega
    rw [hbd, hmin]
    refine ⟨hb, ?_, ?_⟩
    · obtain ⟨q2, hq2⟩ : ∃ q2, q = 2 * q2 := ⟨q / 2, by omega⟩
      exact ⟨q2, by rw [hq, hq2, pow_succ]; ring⟩
    · intro p
      exact ivl_split b order p
  · rw [if_neg hqe]
    have hge : 2 ^ order ≤ b - base := by
      rw [hq]
      have : 1 ≤ q := by omega
      calc 2 ^ order = 2 ^ order * 1 := by ring
        _ ≤ 2 ^ order * q := Nat.mul_le_mul_left _ this
    have hbd : base + (b - base - 2 ^ order) = b - 2 ^ order := by omega
    have hmin : min b (b - 2 ^ order) = b - 2 ^ order := by omega
    rw [hbd, hmin]
    refine ⟨by omega, ?_, ?_⟩
    · obtain ⟨q2, hq2⟩ : ∃ q2, q - 1 = 2 * q2 := ⟨(q - 1) / 2, by omega⟩
      have hml : 2 ^ order * (q - 1) + 2 ^ order = 2 ^ order * q := by
        have hqs : (q - 1) + 1 = q := by omega
        calc 2 ^ order * (q - 1) + 2 ^ order = 2 ^ order * ((q - 1) + 1) := by ring
          _ = 2 ^ order * q := by rw [hqs]
      have h1 : b - 2 ^ order - base = 2 ^ order * (q - 1) := by omega
      exact ⟨q2, by rw [h1, hq2, pow_succ]; ring⟩
    · intro p
      have hsplit := ivl_split (b - 2 ^ order) order p
      have hre : b - 2 ^ order + 2 ^ order = b := by omega
      rw [hre] at hsplit
      rw [hsplit]
      omega

theorem push_free_same (fl : Nat → List Nat) (k x : Nat) :
    push_free fl k x k = x :: fl k := by
  unfold push_free
  rw [Function.update_same]

theorem push_free_ne (fl : Nat → List Nat) {k j : Nat} (x : Nat) (h : j ≠ k) :
    push_free fl k x j = fl j := by
  unfold push_free
  rw [Function.update_noteq h]

/-- Pushing an aligned in-range block whose buddy is not free preserves the
    free-list well-formedness. -/
theorem lists_ok_push {base mino maxo : Nat} {fl : Nat → List Nat} {k x : Nat}
    (hok : lists_ok base mino maxo fl)
    (hk : mino ≤ k) (hk2 : k ≤ maxo) (hmo : maxo ≤ 31)
    (hx : base ≤ x) (hxd : 2 ^ k ∣ (x - base))
    (hnb : k < maxo → (base + ((x - base) ^^^ 2 ^ k)) ∉ (x :: fl k)) :
    lists_ok base mino maxo (push_free fl k x) := by
  obtain ⟨h1, h2, h3, h4⟩ := hok
  refine ⟨?_, ?_, ?_, ?_⟩
  · intro j hj
    rw [push_free_ne fl x (by omega)]
    exact h1 j hj
  · intro j a ha
    by_cases hj : j = k
    · subst hj
      rw [push_free_same] at ha
      rcases List.mem_cons.mp ha with rfl | ha2
      · exact ⟨hk, hk2⟩
      · exact h2 j a ha2
    · rw [push_free_ne fl x hj] at ha
      exact h2 j a ha
  · intro j a ha
    by_cases hj : j = k
    · subst hj
      rw [push_free_same] at ha
      rcases List.mem_cons.mp ha with rfl | ha2
      · exact ⟨hx, hxd⟩
      · exact h3 j a ha2
    · rw [push_free_ne fl x hj] at ha
      exact h3 j a ha
  · intro j hjmax a ha
    by_cases hj : j = k
    · subst hj
      rw [push_free_same] at ha ⊢
      rcases List.mem_cons.mp ha with rfl | ha2
      · exact hnb hjmax
      · intro hmem
        rcases List.mem_cons.mp hmem with heq | hmem2
        · have hinv := buddy_addr_invol (h3 j a ha2).1 hx heq
          exact hnb hjmax (by rw [hinv]; exact List.mem_cons_of_mem _ ha2)
        · exact h4 j hjmax a ha2 hmem2
    · rw [push_free_ne fl x hj] at ha ⊢
      exact h4 j hjmax a ha

/-- Replacing one list by a list of elements it already contained preserves
    well-formedness. -/
theorem lists_ok_replace_sub {base mino maxo : Nat} {fl : Nat → List Nat} {k : Nat}
    {L : List Nat} (hok : lists_ok base mino maxo fl) (hk : k ≤ 31)
    (hsub : ∀ a ∈ L, a ∈ fl k) :
    lists_ok base mino maxo (Function.update fl k L) := by
  obtain ⟨h1, h2, h3, h4⟩ := hok
  refine ⟨?_, ?_, ?_, ?_⟩
  · intro j hj
    rw [Function.update_noteq (by omega)]
    exact h1 j hj
  · intro j a ha
    by_cases hj : j = k
    · subst hj; rw [Function.update_same] at ha; exact h2 j a (hsub a ha)
    · rw [Function.update_noteq hj] at ha; exact h2 j a ha
  · intro j a ha
    by_cases hj : j = k
    · subst hj; rw [Function.update_same] at ha; exact h3 j a (hsub a ha)
    · rw [Function.update_noteq hj] at ha; exact h3 j a ha
  · intro j hjmax a ha
    by_cases hj : j = k
    · subst hj
      rw [Function.update_same] at ha ⊢
      intro hmem
      exact h4 j hjmax a (hsub a ha) (hsub _ hmem)
    · rw [Function.update_noteq hj] at ha ⊢
      exact h4 j hjmax a ha

/-- The halving loop keeps the lists well-formed and turns exact cover with
    the popped block into exact cover with the block trimmed to the target
    order. -/
theorem split_loop_spec (base mino maxo : Nat) (live : List buddy_block)
    (hmo : maxo ≤ 31) :
    ∀ found order block fl,
      order ≤ found → found ≤ maxo → mino ≤ order →
      base ≤ block → 2 ^ found ∣ (block - base) →
      lists_ok base mino maxo fl →
      (∀ p, fcnt fl p + (ivl block found p + vcnt live p) = ivl base maxo p) →
      lists_ok base mino maxo (split_loop block fl found order) ∧
      (∀ p, fcnt (split_loop block fl found order) p
          + (ivl block order p + vcnt live p) = ivl base maxo p) := by
  intro found
  induction found with
  | zero =>
    intro order block fl h1 h2 h3 h4 h5 hok hcov
    obtain rfl : order = 0 := by omega
    simpa [split_loop] using ⟨hok, hcov⟩
  | succ f ih =>
    intro order block fl h1 h2 h3 h4 h5 hok hcov
    by_cases ho : order < f + 1
    · have hstep : split_loop block fl (f + 1) order
          = split_loop block (push_free fl f (block + order_to_size f)) f order := by
        simp [split_loop, ho]
      rw [hstep]
      have hf31 : f < 32 := by omega
      have hdvdf : 2 ^ f ∣ (block - base) :=
        dvd_trans (pow_dvd_pow 2 (Nat.le_succ f)) h5
      have hfresh : ∀ p, ivl block (f + 1) p = 1 → fcnt fl p = 0 ∧ vcnt live p = 0 := by
        intro p hp
        have hc := hcov p
        have := ivl_le_one base maxo p
        omega
      have hblock_notin : block ∉ fl f := by
        intro hmem
        have hub := fcnt_ge_of_mem hf31 hmem block
        rw [ivl_self] at hub
        have hz := (hfresh block (ivl_self _ _)).1
        omega
      have hpb : base ≤ block + 2 ^ f := by omega
      have hpd : 2 ^ f ∣ (block + 2 ^ f - base) := by
        have hr : block + 2 ^ f - base = (block - base) + 2 ^ f := by omega
        rw [hr]
        exact Nat.dvd_add hdvdf dvd_rfl
      have hbuddy : base + ((block + 2 ^ f - base) ^^^ 2 ^ f) = block := by
        have h6 : block + 2 ^ f - base = (block - base) + 2 ^ f := by omega
        rw [h6, xor_plus_pow h5]
        omega
      have hok2 : lists_ok base mino maxo (push_free fl f (block + order_to_size f)) := by
        unfold order_to_size
        apply lists_ok_push hok (by omega) (by omega) hmo hpb hpd
        intro hfmax
        rw [hbuddy]
        intro hmem
        rcases List.mem_cons.mp hmem with heq | hmem2
        · have := Nat.pos_pow_of_pos f (show 0 < 2 by norm_num)
          omega
        · exact hblock_notin hmem2
      have hcov2 : ∀ p, fcnt (push_free fl f (block + order_to_size f)) p
          + (ivl block f p + vcnt live p) = ivl base maxo p := by
        intro p
        rw [show order_to_size f = 2 ^ f from rfl, fcnt_push hf31]
        have hsp := ivl_split block f p
        have hcp := hcov p
        omega
      exact ih order block _ (by omega) (by omega) h3 h4 hdvdf hok2 hcov2
    · obtain rfl : order = f + 1 := by omega
      simpa [split_loop, ho] using ⟨hok, hcov⟩

/-- The structural invariant only looks at the state and the live list. -/
theorem buddy_sinv_of_eq {m m2 : buddy_mach} (I : buddy_sinv m)
    (hst : m2.st = m.st) (hl : m2.live = m.live) : buddy_sinv m2 := by
  obtain ⟨h1, h2, h3, h4, h5, h6, h7, h8, h9⟩ := I
  exact ⟨by rw [hst]; exact h1, by rw [hst]; exact h2, by rw [hst]; exact h3,
    by rw [hst]; exact h4, by rw [hst]; exact h5, by rw [hst]; exact h6,
    by rw [hst, hl]; exact h7, by rw [hst, hl]; exact h8, by rw [hst, hl]; exact h9⟩

/-- Allocation preserves the structural invariant of the buddy machine. -/
theorem buddy_sinv_alloc {m : buddy_mach} (s : Nat) (I : buddy_sinv m) :
    buddy_sinv (buddy_allocator_alloc m s).1 := by
  cases hr : buddy_allocator_alloc m s with
  | mk m2 res =>
    cases res with
    | none =>
      have hfall := buddy_alloc_fail hr
      by_cases hs : s = 0
      · rw [if_pos hs] at hfall
        exact buddy_sinv_of_eq I (by rw [hfall]) (by rw [hfall])
      · rw [if_neg hs] at hfall
        exact buddy_sinv_of_eq I (by rw [hfall]) (by rw [hfall])
    | some p =>
      obtain ⟨hs, block, rest, found, hp, hof, hfm, hfl, hstats, hlive, hst⟩ :=
        buddy_alloc_success hr
      have hblockmem : block ∈ m.st.free_lists found := by rw [hfl]; exact List.mem_cons_self _ _
      have hf31 : found < 32 := by have := I.mo31; omega
      have hba : m.st.base ≤ block ∧ 2 ^ found ∣ (block - m.st.base) :=
        I.lok.2.2.1 found block hblockmem
      have hordmin : m.st.min_order ≤ buddy_order m.st s := buddy_order_ge_min m.st s
      have hok1 : lists_ok m.st.base m.st.min_order m.st.max_order
          (Function.update m.st.free_lists found rest) := by
        apply lists_ok_replace_sub I.lok (by omega)
        intro a ha
        rw [hfl]
        exact List.mem_cons_of_mem _ ha
      have hcov1 : ∀ q, fcnt (Function.update m.st.free_lists found rest) q
          + (ivl block found q + vcnt m.live q) = ivl m.st.base m.st.max_order q := by
        intro q
        have hpop := fcnt_pop hf31 hfl q
        have hc := I.cover q
        omega
      obtain ⟨hok2, hcov2⟩ := split_loop_spec m.st.base m.st.min_order m.st.max_order
        m.live I.mo31 found (buddy_order m.st s) block
        (Function.update m.st.free_lists found rest)
        hof hfm hordmin hba.1 hba.2 hok1 hcov1
      have hhs2 : m2.st.heap_size = m.st.heap_size := by rw [hst]
      have hmin2 : m2.st.min_order = m.st.min_order := by rw [hst]
      have hmax2 : m2.st.max_order = m.st.max_order := by rw [hst]
      have hbase2 : m2.st.base = m.st.base := by rw [hst]
      have hfl2 : m2.st.free_lists
          = split_loop block (Function.update m.st.free_lists found rest) found
              (buddy_order m.st s) := by rw [hst]
      refine ⟨?_, ?_, ?_, ?_, ?_, ?_, ?_, ?_, ?_⟩
      · rw [hhs2, hmax2]; exact I.hs2
      · rw [hmin2]; exact I.mn5
      · rw [hmin2, hmax2]; exact I.mm
      · rw [hmax2]; exact I.mo31
      · rw [hmax2, hbase2]; exact I.ba
      · rw [hbase2, hmin2, hmax2, hfl2]; exact hok2
      · intro q
        rw [hbase2, hmax2, hfl2, hlive, vcnt_cons]
        exact hcov2 q
      · intro b hb
        rw [hlive] at hb
        rw [hmin2, hmax2]
        rcases List.mem_cons.mp hb with rfl | hb2
        · exact ⟨hordmin, le_trans hof hfm⟩
        · exact I.ordL b hb2
      · intro b hb
        rw [hlive] at hb
        rw [hbase2]
        rcases List.mem_cons.mp hb with rfl | hb2
        · exact ⟨hba.1, dvd_trans (pow_dvd_pow 2 hof) hba.2⟩
        · exact I.alL b hb2

/-- The coalescing loop keeps the lists well-formed, preserves the exact
    cover with the merged block in hand, keeps the block aligned and in
    range, and on exit below max_order the block's buddy is not free. -/
theorem coalesce_go_spec (base mino maxo : Nat) (C : Nat → Nat) (hmo : maxo ≤ 31) :
    ∀ n fl b order,
      order + n = maxo → mino ≤ order →
      base ≤ b → 2 ^ order ∣ (b - base) →
      lists_ok base mino maxo fl →
      (∀ p, fcnt fl p + (ivl b order p + C p) = ivl base maxo p) →
      lists_ok base mino maxo (coalesce_go base n fl b order).1 ∧
      (∀ p, fcnt (coalesce_go base n fl b order).1 p
          + (ivl (coalesce_go base n fl b order).2.1 (coalesce_go base n fl b order).2.2 p
              + C p)
          = ivl base maxo p) ∧
      base ≤ (coalesce_go base n fl b order).2.1 ∧
      2 ^ (coalesce_go base n fl b order).2.2
        ∣ ((coalesce_go base n fl b order).2.1 - base) ∧
      mino ≤ (coalesce_go base n fl b order).2.2 ∧
      (coalesce_go base n fl b order).2.2 ≤ maxo ∧
      ((coalesce_go base n fl b order).2.2 < maxo →
        (base + (((coalesce_go base n fl b order).2.1 - base)
            ^^^ 2 ^ (coalesce_go base n fl b order).2.2))
          ∉ (coalesce_go base n fl b order).1 (coalesce_go base n fl b order).2.2) := by
  intro n
  induction n with
  | zero =>
    intro fl b order h1 h2 h3 h4 hok hcov
    have h6 : order ≤ maxo := by omega
    have h7 : order < maxo → (base + ((b - base) ^^^ 2 ^ order)) ∉ fl order :=
      fun hlt => absurd hlt (by omega)
    exact ⟨hok, hcov, h3, h4, h2, h6, h7⟩
  | succ n ih =>
    intro fl b order h1 h2 h3 h4 hok hcov
    cases htr : try_remove_buddy (fl order) (base + ((b - base) ^^^ 2 ^ order)) with
    | none =>
      have hre : coalesce_go base (n + 1) fl b order = (fl, b, order) := by
        simp only [coalesce_go, order_to_size, htr]
      rw [hre]
      have h6 : order ≤ maxo := by omega
      have h7 : order < maxo → (base + ((b - base) ^^^ 2 ^ order)) ∉ fl order := by
        intro _ hmem
        rw [try_remove_buddy, if_pos hmem] at htr
        cases htr
      exact ⟨hok, hcov, h3, h4, h2, h6, h7⟩
    | some l2 =>
      have hmem : (base + ((b - base) ^^^ 2 ^ order)) ∈ fl order ∧
          l2 = (fl order).erase (base + ((b - base) ^^^ 2 ^ order)) := by
        by_cases hm : (base + ((b - base) ^^^ 2 ^ order)) ∈ fl order
        · rw [try_remove_buddy, if_pos hm] at htr
          exact ⟨hm, (Option.some.inj htr).symm⟩
        · rw [try_remove_buddy, if_neg hm] at htr
          cases htr
      obtain ⟨hm, rfl⟩ := hmem
      have hre : coalesce_go base (n + 1) fl b order
          = coalesce_go base n
              (Function.update fl order
                ((fl order).erase (base + ((b - base) ^^^ 2 ^ order))))
              (min b (base + ((b - base) ^^^ 2 ^ order))) (order + 1) := by
        simp only [coalesce_go, order_to_size, htr]
      rw [hre]
      obtain ⟨hp1, hp2, hp3⟩ := merge_pair h3 h4
      have ho31 : order < 32 := by omega
      apply ih
      · omega
      · omega
      · exact hp1
      · exact hp2
      · exact lists_ok_replace_sub hok (by omega) (fun a ha => List.mem_of_mem_erase ha)
      · intro p
        have hera := fcnt_erase ho31 hm p
        have hmg := hp3 p
        have hc := hcov p
        omega

/-- Freeing a live block preserves the structural invariant of the buddy
    machine. -/
theorem buddy_sinv_free {m : buddy_mach} {b : buddy_block} (I : buddy_sinv m)
    (hb : b ∈ m.live) : buddy_sinv (buddy_allocator_free_valid m b) := by
  obtain ⟨ho1, ho2⟩ := I.ordL b hb
  obtain ⟨ha1, ha2⟩ := I.alL b hb
  have hwi := live_within I hb
  have hpo : 0 < (2 : Nat) ^ b.order := Nat.pos_pow_of_pos _ (by norm_num)
  have horder : ¬(b.order < m.st.min_order ∨ m.st.max_order < b.order) := by omega
  have hrange : ¬(b.addr < m.st.base ∨ m.st.base + m.st.heap_size ≤ b.addr) := by
    have := I.hs2
    omega
  have hmain := @buddy_free_raw_main m b.addr b.order b.requested horder hrange
  have hstM : (buddy_allocator_free_valid m b).st
      = { m.st with free_lists := push_free (coalesce_loop m.st.free_lists m.st.base m.st.max_order b.addr b.order).1 (coalesce_loop m.st.free_lists m.st.base m.st.max_order b.addr b.order).2.2 (coalesce_loop m.st.free_lists m.st.base m.st.max_order b.addr b.order).2.1 } := by
    show (buddy_allocator_free_raw m b.addr BUDDY_MAGIC b.order b.requested).st = _
    rw [hmain]
  have hliveM : (buddy_allocator_free_valid m b).live = m.live.erase b := rfl
  have hcl : coalesce_loop m.st.free_lists m.st.base m.st.max_order b.addr b.order
      = coalesce_go m.st.base (m.st.max_order - b.order) m.st.free_lists b.addr b.order :=
    rfl
  obtain ⟨hokr, hcovr, hbr, hdr, hminr, hmaxr, hexit⟩ :=
    coalesce_go_spec m.st.base m.st.min_order m.st.max_order
      (vcnt (m.live.erase b)) I.mo31 (m.st.max_order - b.order)
      m.st.free_lists b.addr b.order (by omega) ho1 ha1 ha2 I.lok
      (by
        intro p
        have h1 := I.cover p
        have h2 := vcnt_erase hb p
        omega)
  rw [← hcl] at hokr hcovr hbr hdr hminr hmaxr hexit
  have hk31 : (coalesce_loop m.st.free_lists m.st.base m.st.max_order b.addr b.order).2.2
      < 32 := by
    have := I.mo31
    omega
  have hhs2 : (buddy_allocator_free_valid m b).st.heap_size = m.st.heap_size := by
    rw [hstM]
  have hmin2 : (buddy_allocator_free_valid m b).st.min_order = m.st.min_order := by
    rw [hstM]
  have hmax2 : (buddy_allocator_free_valid m b).st.max_order = m.st.max_order := by
    rw [hstM]
  have hbase2 : (buddy_allocator_free_valid m b).st.base = m.st.base := by
    rw [hstM]
  have hfl2 : (buddy_allocator_free_valid m b).st.free_lists
      = push_free
          (coalesce_loop m.st.free_lists m.st.base m.st.max_order b.addr b.order).1
          (coalesce_loop m.st.free_lists m.st.base m.st.max_order b.addr b.order).2.2
          (coalesce_loop m.st.free_lists m.st.base m.st.max_order b.addr b.order).2.1 := by
    rw [hstM]
  refine ⟨?_, ?_, ?_, ?_, ?_, ?_, ?_, ?_, ?_⟩
  · rw [hhs2, hmax2]; exact I.hs2
  · rw [hmin2]; exact I.mn5
  · rw [hmin2, hmax2]; exact I.mm
  · rw [hmax2]; exact I.mo31
  · rw [hmax2, hbase2]; exact I.ba
  · rw [hbase2, hmin2, hmax2, hfl2]
    apply lists_ok_push hokr hminr hmaxr I.mo31 hbr hdr
    intro hlt hmem2
    rcases List.mem_cons.mp hmem2 with heq | hmem3
    · have hne := xor_two_pow_ne
        ((coalesce_loop m.st.free_lists m.st.base m.st.max_order b.addr b.order).2.1
          - m.st.base)
        (coalesce_loop m.st.free_lists m.st.base m.st.max_order b.addr b.order).2.2
      omega
    · exact hexit hlt hmem3
  · intro q
    rw [hbase2, hmax2, hfl2, hliveM, fcnt_push hk31]
    have h1 := hcovr q
    omega
  · intro b2 hb2
    rw [hliveM] at hb2
    rw [hmin2, hmax2]
    exact I.ordL b2 (List.mem_of_mem_erase hb2)
  · intro b2 hb2
    rw [hliveM] at hb2
    rw [hbase2]
    exact I.alL b2 (List.mem_of_mem_erase hb2)

/-! ## Logarithm loops -/

/-- The halving loop counts floor(log2) when given enough fuel. -/
theorem log2_loop_eq : ∀ fuel x r, x ≤ fuel → log2_loop fuel x r = r + Nat.log2 x := by
  intro fuel
  induction fuel with
  | zero =>
    intro x r hx
    obtain rfl : x = 0 := by omega
    simp [log2_loop, Nat.log2]
  | succ n ih =>
    intro x r hx
    unfold log2_loop
    by_cases hy : x / 2 = 0
    · rw [if_pos hy]
      have hx1 : x ≤ 1 := by omega
      have : Nat.log2 x = 0 := by
        interval_cases x <;> simp [Nat.log2]
      omega
    · rw [if_neg hy]
      have hx2 : 2 ≤ x := by omega
      have hdec : x / 2 ≤ n := by omega
      rw [ih (x / 2) (r + 1) hdec]
      have hlog : Nat.log2 x = Nat.log2 (x / 2) + 1 := by
        rw [Nat.log2]
        simp [hx2]
      omega

theorem floor_log2_size_eq (x : Nat) : floor_log2_size x = Nat.log2 x := by
  unfold floor_log2_size
  rw [log2_loop_eq x x 0 le_rfl]
  omega

/-- Rounding up: 2^(ceil_log2_size x) is at least x. -/
theorem ceil_log2_ge (x : Nat) : x ≤ 2 ^ ceil_log2_size x := by
  unfold ceil_log2_size
  by_cases h1 : x ≤ 1
  · rw [if_pos h1]; omega
  · rw [if_neg h1, floor_log2_size_eq]
    have := Nat.lt_log2_self (n := x - 1)
    omega

/-- Minimality: for x at least 2, the next order down does not suffice. -/
theorem ceil_log2_min {x : Nat} (h : 2 ≤ x) : 2 ^ (ceil_log2_size x - 1) < x := by
  unfold ceil_log2_size
  rw [if_neg (by omega), floor_log2_size_eq]
  have := Nat.log2_self_le (n := x - 1) (by omega)
  simpa using by omega

/-! ## Buddy allocator: initialization -/

theorem compute_min_order_eq : compute_min_order = 5 := by decide

theorem fcnt_nil (p : Nat) : fcnt (fun _ => []) p = 0 := by
  simp [fcnt, lcnt]

/-- The descending scan returns an aligned block strictly above min_order
    that fits below region_end. -/
theorem choose_base_spec {after_impl region_end : Nat} :
    ∀ fuel mino b o, choose_base after_impl region_end fuel mino = some (b, o) →
      mino < o ∧ o ≤ fuel ∧ b = align_up after_impl (2 ^ o) ∧
      b + 2 ^ o ≤ region_end := by
  intro fuel
  induction fuel with
  | zero => intro mino b o h; cases h
  | succ mo ih =>
    intro mino b o h
    simp only [choose_base] at h
    by_cases hm : mino < mo + 1
    · rw [if_pos hm] at h
      by_cases hfit : align_up after_impl (order_to_size (mo + 1))
          + order_to_size (mo + 1) ≤ region_end
      · rw [if_pos hfit] at h
        obtain ⟨rfl, rfl⟩ := Prod.mk.injEq _ _ _ _ |>.mp (Option.some.inj h)
        exact ⟨hm, le_rfl, rfl, hfit⟩
      · rw [if_neg hfit] at h
        obtain ⟨h1, h2, h3, h4⟩ := ih mino b o h
        exact ⟨h1, by omega, h3, h4⟩
    · rw [if_neg hm] at h
      cases h

/-- A machine whose state has the just-initialized shape satisfies the
    structural invariant. -/
theorem buddy_sinv_of_shape {m : buddy_mach} (hl : m.live = [])
    (h5 : 5 ≤ m.st.min_order) (hmm : m.st.min_order ≤ m.st.max_order)
    (hmo : m.st.max_order ≤ 31) (hdvd : 2 ^ m.st.max_order ∣ m.st.base)
    (hhs : m.st.heap_size = 2 ^ m.st.max_order)
    (hfl : m.st.free_lists = push_free (fun _ => []) m.st.max_order m.st.base) :
    buddy_sinv m := by
  refine ⟨hhs, h5, hmm, hmo, hdvd, ?_, ?_, ?_, ?_⟩
  · rw [hfl]
    refine ⟨?_, ?_, ?_, ?_⟩
    · intro k hk
      rw [push_free_ne _ _ (by omega)]
    · intro k a ha
      by_cases hkmo : k = m.st.max_order
      · subst hkmo
        rw [push_free_same] at ha
        rcases List.mem_cons.mp ha with rfl | h2
        · exact ⟨hmm, le_rfl⟩
        · cases h2
      · rw [push_free_ne _ _ hkmo] at ha
        cases ha
    · intro k a ha
      by_cases hkmo : k = m.st.max_order
      · subst hkmo
        rw [push_free_same] at ha
        rcases List.mem_cons.mp ha with rfl | h2
        · exact ⟨le_rfl, by simp⟩
        · cases h2
      · rw [push_free_ne _ _ hkmo] at ha
        cases ha
    · intro k hk a ha
      by_cases hkmo : k = m.st.max_order
      · exact absurd hk (by omega)
      · rw [push_free_ne _ _ hkmo] at ha
        cases ha
  · intro p
    rw [hfl, hl, fcnt_push (by omega)]
    show fcnt (fun _ => []) p + ivl m.st.base m.st.max_order p + vcnt [] p = _
    rw [fcnt_nil]
    show 0 + ivl m.st.base m.st.max_order p + 0 = _
    omega
  · intro b2 hb2
    rw [hl] at hb2
    cases hb2
  · intro b2 hb2
    rw [hl] at hb2
    cases hb2

/-- Shape of any successfully initialized buddy state. -/
theorem buddy_init_spec {region region_size : Nat} {st : buddy_state}
    (h : (buddy_allocator_init region region_size).1 = some st) :
    st.min_order = compute_min_order ∧
    st.min_order ≤ st.max_order ∧ st.max_order ≤ 31 ∧
    st.heap_size = 2 ^ st.max_order ∧
    2 ^ st.max_order ∣ st.base ∧
    st.free_lists = push_free (fun _ => []) st.max_order st.base ∧
    st.heap_size ≤ region_size := by
  simp only [buddy_allocator_init] at h
  split_ifs at h with h1 h2 h3 h4 h5 h6
  all_goals set impl_base := align_up region 16 with himpl
  all_goals set usable := region_size - (impl_base - region) with husable
  all_goals set after_impl := align_up (impl_base + BUDDY_IMPL_SIZE) 16 with hafter
  all_goals set mino := compute_min_order with hmino
  all_goals have hmino5 : mino = 5 := compute_min_order_eq
  all_goals have hregle : region ≤ impl_base := (align_up_le (by norm_num)).1
  all_goals have haft1 : impl_base + BUDDY_IMPL_SIZE ≤ after_impl :=
    (align_up_le (by norm_num)).1
  all_goals have hfb1 : after_impl ≤ align_up after_impl (order_to_size mino) :=
    (align_up_le (Nat.pos_pow_of_pos _ (by norm_num))).1
  all_goals have hots : order_to_size mino = 2 ^ mino := rfl
  -- h6 names the fallback fit test; the match on choose_base remains
  all_goals split at h
  all_goals try cases h
  -- remaining: fallback-refused/some-arm, fallback-fits/some-arm,
  -- fallback-fits/none-arm
  next b mo hcb =>
    obtain ⟨hgt, hle, hba, hfit⟩ := choose_base_spec _ _ _ _ hcb
    by_cases hb0 : b = 0
    · rw [if_pos hb0] at h
      cases h
    · rw [if_neg hb0] at h
      obtain rfl := (Option.some.inj h).symm
      have hmo31 : mo ≤ 31 := by
        have h31 : min (floor_log2_size (impl_base + usable - after_impl))
            (BUDDY_MAX_ORDERS - 1) ≤ 31 :=
          le_trans (Nat.min_le_right _ _) (by norm_num [BUDDY_MAX_ORDERS])
        omega
      refine ⟨rfl, (by omega : mino ≤ mo), hmo31, rfl, ?_, rfl, ?_⟩
      · show 2 ^ mo ∣ b
        rw [hba]
        exact align_up_dvd _ _
      · show order_to_size mo ≤ region_size
        have hbge : region ≤ b := by
          rw [hba]
          have h9 := (align_up_le (a := 2 ^ mo) (p := after_impl)
            (Nat.pos_pow_of_pos _ (by norm_num))).1
          omega
        have hots2 : order_to_size mo = 2 ^ mo := rfl
        omega
  next b mo hcb =>
    obtain ⟨hgt, hle, hba, hfit⟩ := choose_base_spec _ _ _ _ hcb
    by_cases hb0 : b = 0
    · rw [if_pos hb0] at h
      obtain rfl := (Option.some.inj h).symm
      refine ⟨rfl, le_rfl, (by omega : mino ≤ 31), rfl, align_up_dvd _ _, rfl, ?_⟩
      show (2 : Nat) ^ mino ≤ region_size
      omega
    · rw [if_neg hb0] at h
      obtain rfl := (Option.some.inj h).symm
      have hmo31 : mo ≤ 31 := by
        have h31 : min (floor_log2_size (impl_base + usable - after_impl))
            (BUDDY_MAX_ORDERS - 1) ≤ 31 :=
          le_trans (Nat.min_le_right _ _) (by norm_num [BUDDY_MAX_ORDERS])
        omega
      refine ⟨rfl, (by omega : mino ≤ mo), hmo31, rfl, ?_, rfl, ?_⟩
      · show 2 ^ mo ∣ b
        rw [hba]
        exact align_up_dvd _ _
      · show order_to_size mo ≤ region_size
        have hbge : region ≤ b := by
          rw [hba]
          have h9 := (align_up_le (a := 2 ^ mo) (p := after_impl)
            (Nat.pos_pow_of_pos _ (by norm_num))).1
          omega
        have hots2 : order_to_size mo = 2 ^ mo := rfl
        omega
  next hcb =>
    refine ⟨rfl, le_rfl, (by omega : mino ≤ 31), rfl, align_up_dvd _ _, rfl, ?_⟩
    show (2 : Nat) ^ mino ≤ region_size
    omega

/-- A successfully created buddy machine satisfies the structural
    invariant. -/
theorem buddy_init_sinv {region region_size : Nat} {st : buddy_state}
    (h : (buddy_allocator_init region region_size).1 = some st)
    (stats : allocator_stats_t) :
    buddy_sinv { st := st, stats := stats, live := [] } := by
  obtain ⟨hmin, hmm, hmo, hhs, hba, hfl, _⟩ := buddy_init_spec h
  exact buddy_sinv_of_shape rfl (by rw [hmin, compute_min_order_eq]) hmm hmo hba hhs hfl

/-- Every reachable buddy machine satisfies the structural invariant. -/
theorem buddy_reach_sinv {m : buddy_mach} (h : buddy_reach m) : buddy_sinv m := by
  induction h with
  | created region region_size st h => exact buddy_init_sinv h _
  | stepped_alloc m s h ih => exact buddy_sinv_alloc s ih
  | stepped_free m b h hb ih => exact buddy_sinv_free ih hb

/-! ## Buddy allocator: accounting invariant -/

/-- Under the structural invariant the live blocks occupy at most the heap. -/
theorem buddy_live_bytes {m : buddy_mach} (I : buddy_sinv m) :
    (m.live.map (fun b => 2 ^ b.order)).sum ≤ 2 ^ m.st.max_order := by
  set P := Finset.Ico m.st.base (m.st.base + 2 ^ m.st.max_order) with hP
  have h1 : ∑ p ∈ P, vcnt m.live p ≤ ∑ p ∈ P, ivl m.st.base m.st.max_order p := by
    apply Finset.sum_le_sum
    intro p _
    have := I.cover p
    omega
  have h2 : ∑ p ∈ P, ivl m.st.base m.st.max_order p = 2 ^ m.st.max_order :=
    sum_ivl_interval le_rfl le_rfl
  have h3 : ∑ p ∈ P, vcnt m.live p
      = (m.live.map (fun b => ∑ p ∈ P, ivl b.addr b.order p)).sum := by
    unfold vcnt
    exact sum_points_list P m.live (fun p b => ivl b.addr b.order p)
  have h4 : (m.live.map (fun b => ∑ p ∈ P, ivl b.addr b.order p)).sum
      = (m.live.map (fun b => 2 ^ b.order)).sum := by
    apply congrArg
    apply List.map_congr_left
    intro b hb
    exact sum_ivl_interval (I.alL b hb).1 (live_within I hb)
  omega

/-- The stored order covers the request footprint when it does not wrap. -/
theorem buddy_order_covers (st : buddy_state) {s : Nat}
    (hs : s + BUDDY_HEADER_SIZE < W) :
    s + BUDDY_HEADER_SIZE ≤ 2 ^ buddy_order st s := by
  have hmod : (s + BUDDY_HEADER_SIZE) % W = s + BUDDY_HEADER_SIZE :=
    Nat.mod_eq_of_lt hs
  simp only [buddy_order, hmod]
  have hge := ceil_log2_ge (s + BUDDY_HEADER_SIZE)
  split_ifs with h
  · exact le_trans hge (Nat.pow_le_pow_right (by norm_num) (by omega))
  · exact hge

/-- Every reachable buddy machine along non-wrapping request sizes satisfies
    both invariants. -/
theorem buddy_reach_ok_inv {m : buddy_mach} (h : buddy_reach_ok m) :
    buddy_sinv m ∧ buddy_inv m := by
  induction h with
  | created region region_size st hW h =>
    obtain ⟨_, _, _, _, _, _, hle⟩ := buddy_init_spec h
    exact ⟨buddy_init_sinv h _,
      ⟨rfl, rfl, (by intro b hb; cases hb), (by show st.heap_size < W; omega), rfl⟩⟩
  | stepped_alloc m s hr hs ih =>
    obtain ⟨iS, iI⟩ := ih
    refine ⟨buddy_sinv_alloc s iS, ?_⟩
    rcases hres : buddy_allocator_alloc m s with ⟨m2, res⟩
    show buddy_inv m2
    cases res with
    | none =>
      have hshape := buddy_alloc_fail hres
      by_cases h0 : s = 0
      · rw [if_pos h0] at hshape; subst hshape; exact iI
      · rw [if_neg h0] at hshape; subst hshape
        exact ⟨iI.ca, iI.cr, iI.rc, iI.hsW, iI.hs_eq⟩
    | some p =>
      obtain ⟨h0, block, rest, found, hp, hof, hfm, hfl, hstats, hlive, hst⟩ :=
        buddy_alloc_success hres
      have iS2 : buddy_sinv m2 := by
        have := buddy_sinv_alloc s iS
        rw [hres] at this
        exact this
      have h16W : s + BUDDY_HEADER_SIZE < W := by
        show s + 16 < W
        omega
      have hcov : s + BUDDY_HEADER_SIZE ≤ 2 ^ buddy_order m.st s :=
        buddy_order_covers m.st h16W
      have hlb2 := buddy_live_bytes iS2
      rw [hlive] at hlb2
      simp only [List.map_cons, List.sum_cons] at hlb2
      have hmax2 : m2.st.max_order = m.st.max_order := by rw [hst]
      have hhs2 : m2.st.heap_size = m.st.heap_size := by rw [hst]
      rw [hmax2] at hlb2
      have hhsx : 2 ^ m.st.max_order = m.st.heap_size := iS.hs2.symm
      have hbound : (m.live.map (fun b => 2 ^ b.order)).sum
          + 2 ^ buddy_order m.st s ≤ m.st.heap_size := by
        show _ ≤ m.st.heap_size
        omega
      have hcr_le : m.stats.current_requested ≤ m.stats.current_allocated := by
        rw [iI.ca, iI.cr]
        exact List.sum_le_sum iI.rc
      have hwa : wadd m.stats.current_allocated (order_to_size (buddy_order m.st s))
          = m.stats.current_allocated + 2 ^ buddy_order m.st s := by
        show wadd _ (2 ^ buddy_order m.st s) = _
        exact wadd_eq (by have := iI.ca; have := iI.hsW; omega)
      have hwr : wadd m.stats.current_requested s = m.stats.current_requested + s := by
        refine wadd_eq ?_
        have h1 := iI.ca
        have h2 := iI.hsW
        have h3 : s ≤ 2 ^ buddy_order m.st s := by
          show _ ≤ _
          have h16 : BUDDY_HEADER_SIZE = 16 := rfl
          omega
        omega
      refine ⟨?_, ?_, ?_, ?_, ?_⟩
      · rw [hstats, hlive]
        show wadd m.stats.current_allocated (order_to_size (buddy_order m.st s)) = _
        rw [hwa, iI.ca]
        simp [Nat.add_comm]
      · rw [hstats, hlive]
        show wadd m.stats.current_requested s = _
        rw [hwr, iI.cr]
        simp [Nat.add_comm]
      · rw [hlive]
        intro b hb
        rcases List.mem_cons.mp hb with rfl | hb2
        · show s ≤ 2 ^ buddy_order m.st s
          have h16 : BUDDY_HEADER_SIZE = 16 := rfl
          omega
        · exact iI.rc b hb2
      · rw [hhs2]; exact iI.hsW
      · rw [hstats, hhs2]
        show m.stats.heap_size = _
        exact iI.hs_eq
  | stepped_free m b hr hb ih =>
    obtain ⟨iS, iI⟩ := ih
    refine ⟨buddy_sinv_free iS hb, ?_⟩
    obtain ⟨ho1, ho2⟩ := iS.ordL b hb
    have horder : ¬(b.order < m.st.min_order ∨ m.st.max_order < b.order) := by omega
    have hrange : ¬(b.addr < m.st.base ∨ m.st.base + m.st.heap_size ≤ b.addr) := by
      have h1 := (iS.alL b hb).1
      have h2 := live_within iS hb
      have h3 := iS.hs2
      have h4 : 0 < (2 : Nat) ^ b.order := Nat.pos_pow_of_pos _ (by norm_num)
      omega
    have hmain := @buddy_free_raw_main m b.addr b.order b.requested horder hrange
    have hstats : (buddy_allocator_free_valid m b).stats
        = stats_on_free m.stats (order_to_size b.order) b.requested := by
      show (buddy_allocator_free_raw m b.addr BUDDY_MAGIC b.order b.requested).stats = _
      rw [hmain]
    have hlive : (buddy_allocator_free_valid m b).live = m.live.erase b := rfl
    have hhs : (buddy_allocator_free_valid m b).st.heap_size = m.st.heap_size := by
      show (buddy_allocator_free_raw m b.addr BUDDY_MAGIC b.order b.requested).st.heap_size = _
      rw [hmain]
    have hsumc : (m.live.map (fun b2 => 2 ^ b2.order)).sum
        = 2 ^ b.order + ((m.live.erase b).map (fun b2 => 2 ^ b2.order)).sum :=
      sum_map_erase_of_mem (fun b2 => 2 ^ b2.order) hb
    have hsumr : (m.live.map (fun b2 => b2.requested)).sum
        = b.requested + ((m.live.erase b).map (fun b2 => b2.requested)).sum :=
      sum_map_erase_of_mem (fun b2 => b2.requested) hb
    have hlbs := buddy_live_bytes iS
    have hhsx : 2 ^ m.st.max_order = m.st.heap_size := iS.hs2.symm
    have hcaW : m.stats.current_allocated < W := by
      have := iI.ca
      have := iI.hsW
      omega
    have hwc : wsub m.stats.current_allocated (order_to_size b.order)
        = m.stats.current_allocated - 2 ^ b.order := by
      show wsub _ (2 ^ b.order) = _
      refine wsub_eq hcaW ?_
      rw [iI.ca]
      omega
    have hreq_le : b.requested ≤ 2 ^ b.order := iI.rc b hb
    have hwrq : wsub m.stats.current_requested b.requested
        = m.stats.current_requested - b.requested := by
      refine wsub_eq ?_ ?_
      · have h1 := iI.cr
        have h2 := iI.ca
        have h3 : (m.live.map (fun b2 => b2.requested)).sum
            ≤ (m.live.map (fun b2 => 2 ^ b2.order)).sum := List.sum_le_sum iI.rc
        omega
      · rw [iI.cr]
        omega
    refine ⟨?_, ?_, ?_, ?_, ?_⟩
    · rw [hstats, hlive]
      show wsub m.stats.current_allocated (order_to_size b.order) = _
      rw [hwc, iI.ca]
      omega
    · rw [hstats, hlive]
      show wsub m.stats.current_requested b.requested = _
      rw [hwrq, iI.cr]
      omega
    · rw [hlive]
      intro b2 hb2
      exact iI.rc b2 (List.mem_of_mem_erase hb2)
    · rw [hhs]; exact iI.hsW
    · rw [hstats, hhs]
      show m.stats.heap_size = _
      exact iI.hs_eq

/-- A valid buddy free decrements the byte counters by exactly the amounts
    the paired allocation added. -/
theorem buddy_free_valid_stats {m : buddy_mach} {b : buddy_block}
    (iS : buddy_sinv m) (iI : buddy_inv m) (hb : b ∈ m.live) :
    (buddy_allocator_free_valid m b).stats.current_allocated + 2 ^ b.order
        = m.stats.current_allocated ∧
    (buddy_allocator_free_valid m b).stats.current_requested + b.requested
        = m.stats.current_requested := by
  obtain ⟨ho1, ho2⟩ := iS.ordL b hb
  have horder : ¬(b.order < m.st.min_order ∨ m.st.max_order < b.order) := by omega
  have hrange : ¬(b.addr < m.st.base ∨ m.st.base + m.st.heap_size ≤ b.addr) := by
    have h1 := (iS.alL b hb).1
    have h2 := live_within iS hb
    have h3 := iS.hs2
    have h4 : 0 < (2 : Nat) ^ b.order := Nat.pos_pow_of_pos _ (by norm_num)
    omega
  have hmain := @buddy_free_raw_main m b.addr b.order b.requested horder hrange
  have hstats : (buddy_allocator_free_valid m b).stats
      = stats_on_free m.stats (order_to_size b.order) b.requested := by
    show (buddy_allocator_free_raw m b.addr BUDDY_MAGIC b.order b.requested).stats = _
    rw [hmain]
  have hsumc : (m.live.map (fun b2 => 2 ^ b2.order)).sum
      = 2 ^ b.order + ((m.live.erase b).map (fun b2 => 2 ^ b2.order)).sum :=
    sum_map_erase_of_mem (fun b2 => 2 ^ b2.order) hb
  have hlbs := buddy_live_bytes iS
  have hhsx : 2 ^ m.st.max_order = m.st.heap_size := iS.hs2.symm
  have hcaW : m.stats.current_allocated < W := by
    have := iI.ca
    have := iI.hsW
    omega
  have hwc : wsub m.stats.current_allocated (order_to_size b.order)
      = m.stats.current_allocated - 2 ^ b.order := by
    show wsub _ (2 ^ b.order) = _
    refine wsub_eq hcaW ?_
    rw [iI.ca]
    omega
  have hreq_le : b.requested ≤ 2 ^ b.order := iI.rc b hb
  have hsumr : (m.live.map (fun b2 => b2.requested)).sum
      = b.requested + ((m.live.erase b).map (fun b2 => b2.requested)).sum :=
    sum_map_erase_of_mem (fun b2 => b2.requested) hb
  have hwrq : wsub m.stats.current_requested b.requested
      = m.stats.current_requested - b.requested := by
    refine wsub_eq ?_ ?_
    · have h1 := iI.cr
      have h3 : (m.live.map (fun b2 => b2.requested)).sum
          ≤ (m.live.map (fun b2 => 2 ^ b2.order)).sum := List.sum_le_sum iI.rc
      have h4 := iI.hsW
      omega
    · rw [iI.cr]
      omega
  constructor
  · rw [hstats]
    show wsub m.stats.current_allocated (order_to_size b.order) + 2 ^ b.order = _
    rw [hwc, iI.ca]
    omega
  · rw [hstats]
    show wsub m.stats.current_requested b.requested + b.requested = _
    rw [hwrq]
    have hge : b.requested ≤ m.stats.current_requested := by
      rw [iI.cr]
      omega
    omega

/-! ## Buddy allocator: full coalescing -/

/-- Two distinct multiples of 2^t are at least 2^t apart. -/
theorem aligned_gap {t u v : Nat} (hu : 2 ^ t ∣ u) (hv : 2 ^ t ∣ v) (h : u < v) :
    u + 2 ^ t ≤ v := by
  obtain ⟨qu, rfl⟩ := hu
  obtain ⟨qv, rfl⟩ := hv
  have hq : qu < qv := Nat.lt_of_mul_lt_mul_left h
  calc 2 ^ t * qu + 2 ^ t = 2 ^ t * (qu + 1) := by ring
    _ ≤ 2 ^ t * qv := Nat.mul_le_mul_left _ hq

theorem lcnt_pos {l : List Nat} {k p : Nat} (h : lcnt l k p ≠ 0) :
    ∃ c ∈ l, ivl c k p = 1 := by
  induction l with
  | nil => simp [lcnt] at h
  | cons x t ih =>
    rw [lcnt_cons] at h
    by_cases hx : ivl x k p = 0
    · rw [hx] at h
      obtain ⟨c, hc, hc2⟩ := ih (by omega)
      exact ⟨c, List.mem_cons_of_mem _ hc, hc2⟩
    · have := ivl_le_one x k p
      exact ⟨x, List.mem_cons_self _ _, by omega⟩

theorem fcnt_pos {fl : Nat → List Nat} {p : Nat} (h : fcnt fl p ≠ 0) :
    ∃ j, j < 32 ∧ ∃ c ∈ fl j, ivl c j p = 1 := by
  by_contra hno
  push_neg at hno
  apply h
  unfold fcnt
  apply Finset.sum_eq_zero
  intro j hj
  rw [Finset.mem_range] at hj
  by_contra hlz
  obtain ⟨c, hc, hc2⟩ := lcnt_pos hlz
  exact hno j hj c hc hc2

theorem fcnt_pair_ge {fl : Nat → List Nat} {k j : Nat} (hk : k < 32) (hj : j < 32)
    (hne : k ≠ j) (p : Nat) :
    lcnt (fl k) k p + lcnt (fl j) j p ≤ fcnt fl p := by
  have hsub : ({k, j} : Finset Nat) ⊆ Finset.range 32 := by
    intro x hx
    rw [Finset.mem_insert, Finset.mem_singleton] at hx
    rcases hx with rfl | rfl <;> exact Finset.mem_range.mpr (by omega)
  have h := Finset.sum_le_sum_of_subset (f := fun i => lcnt (fl i) i p) hsub
  rw [Finset.sum_pair hne] at h
  exact le_trans h (le_of_eq rfl)

/-- With no live blocks, the structural invariant forces the free lists back
    to the single initial block: everything has coalesced. -/
theorem sinv_empty_live_lists {m : buddy_mach} (I : buddy_sinv m) (hl : m.live = []) :
    (∀ k, k ≠ m.st.max_order → m.st.free_lists k = []) ∧
    m.st.free_lists m.st.max_order = [m.st.base] := by
  obtain ⟨hi32, hord, hal, hnb⟩ := I.lok
  have cover0 : ∀ p, fcnt m.st.free_lists p = ivl m.st.base m.st.max_order p := by
    intro p
    have := I.cover p
    rw [hl] at this
    simpa [vcnt] using this
  have hmo := I.mo31
  have hbelow : ∀ k, k < m.st.max_order → m.st.free_lists k = [] := by
    intro k
    induction k using Nat.strong_induction_on with
    | _ k ih =>
      intro hkm
      by_cases hne : m.st.free_lists k = []
      · exact hne
      exfalso
      obtain ⟨a, ha⟩ := List.exists_mem_of_ne_nil _ hne
      have hk32 : k < 32 := by omega
      obtain ⟨hab, had⟩ := hal k a ha
      have hawi : a + 2 ^ k ≤ m.st.base + 2 ^ m.st.max_order := free_within I hk32 ha
      have hnbi : (m.st.base + ((a - m.st.base) ^^^ 2 ^ k)) ∉ m.st.free_lists k :=
        hnb k hkm a ha
      obtain ⟨hP1, hP2, hP3⟩ := merge_pair hab had
      set a2 := m.st.base + ((a - m.st.base) ^^^ 2 ^ k) with ha2def
      set P := min a a2 with hPdef
      have hpk : 0 < (2 : Nat) ^ k := Nat.pos_pow_of_pos _ (by norm_num)
      have hda2 : 2 ^ k ∣ (a2 - m.st.base) := by
        have hoff : a2 - m.st.base = (a - m.st.base) ^^^ 2 ^ k := by omega
        rw [hoff]
        exact dvd_xor_two_pow had
      have hodvd : 2 ^ (k + 1) ∣ 2 ^ m.st.max_order := pow_dvd_pow 2 (by omega)
      have hPwi : P + 2 ^ (k + 1) ≤ m.st.base + 2 ^ m.st.max_order := by
        have hPa : P ≤ a := min_le_left _ _
        have h1 : P - m.st.base < 2 ^ m.st.max_order := by omega
        have h2 := aligned_gap hP2 hodvd h1
        omega
      have hiva : ivl P (k + 1) a = 1 := by
        have h0 := hP3 a
        rw [ivl_self] at h0
        have h1 := ivl_le_one P (k + 1) a
        have h2 := ivl_le_one a2 k a
        omega
      have hiva2 : ivl P (k + 1) a2 = 1 := by
        have h0 := hP3 a2
        rw [ivl_self] at h0
        have h1 := ivl_le_one P (k + 1) a2
        have h2 := ivl_le_one a k a2
        omega
      have hbnd2 : P ≤ a2 ∧ a2 < P + 2 ^ (k + 1) := by
        unfold ivl at hiva2
        split_ifs at hiva2 with hcond
        exact hcond
      have ha2wi : m.st.base ≤ a2 ∧ a2 + 2 ^ k ≤ m.st.base + 2 ^ m.st.max_order := by
        refine ⟨by omega, ?_⟩
        rcases le_total a2 a with hle | hle
        · have hPeq : P = a2 := by rw [hPdef]; exact min_eq_right hle
          omega
        · have hPeq : P = a := by rw [hPdef]; exact min_eq_left hle
          have hvd : 2 ^ k ∣ (a - m.st.base) + 2 ^ (k + 1) :=
            Nat.dvd_add had (pow_dvd_pow 2 (by omega))
          have h1 : a2 - m.st.base < (a - m.st.base) + 2 ^ (k + 1) := by omega
          have h2 := aligned_gap hda2 hvd h1
          omega
      have hiv2heap : ivl m.st.base m.st.max_order a2 = 1 := by
        unfold ivl
        rw [if_pos ⟨ha2wi.1, by omega⟩]
      have hf2 : fcnt m.st.free_lists a2 ≠ 0 := by
        rw [cover0, hiv2heap]
        omega
      obtain ⟨j, hj32, c, hc, hcj⟩ := fcnt_pos hf2
      obtain ⟨hjmin, hjmax⟩ := hord j c hc
      obtain ⟨hcb, hcd⟩ := hal j c hc
      have hcint : c ≤ a2 ∧ a2 < c + 2 ^ j := by
        unfold ivl at hcj
        split_ifs at hcj with hcond
        exact hcond
      rcases lt_trichotomy j k with hjk | rfl | hkj
      · rw [ih j hjk (by omega)] at hc
        cases hc
      · have hceq : c = a2 := by
          by_contra hne2
          have h1 : c - m.st.base < a2 - m.st.base := by omega
          have h2 := aligned_gap hcd hda2 h1
          omega
        rw [hceq] at hc
        exact hnbi hc
      · have hd21 : 2 ^ (k + 1) ∣ c - m.st.base :=
          dvd_trans (pow_dvd_pow 2 (by omega)) hcd
        have hcP : c ≤ P := by
          by_contra hlt
          push_neg at hlt
          have h1 : P - m.st.base < c - m.st.base := by omega
          have h2 := aligned_gap hP2 hd21 h1
          omega
        have hPend : P + 2 ^ (k + 1) ≤ c + 2 ^ j := by
          have hvd : 2 ^ (k + 1) ∣ (c - m.st.base) + 2 ^ j :=
            Nat.dvd_add hd21 (pow_dvd_pow 2 (by omega))
          have h1 : P - m.st.base < (c - m.st.base) + 2 ^ j := by omega
          have h2 := aligned_gap hP2 hvd h1
          omega
        have hbnda : P ≤ a ∧ a < P + 2 ^ (k + 1) := by
          unfold ivl at hiva
          split_ifs at hiva with hcond
          exact hcond
        have hivca : ivl c j a = 1 := by
          unfold ivl
          rw [if_pos ⟨by omega, by omega⟩]
        have hdc := @fcnt_pair_ge m.st.free_lists k j hk32 hj32 (by omega) a
        have h1 := lcnt_ge_of_mem ha k a
        have h2 := lcnt_ge_of_mem hc j a
        rw [ivl_self] at h1
        rw [hivca] at h2
        have h3 := cover0 a
        have h4 := ivl_le_one m.st.base m.st.max_order a
        omega
  have habove : ∀ k, m.st.max_order < k → m.st.free_lists k = [] := by
    intro k hk
    by_cases hne : m.st.free_lists k = []
    · exact hne
    · exfalso
      obtain ⟨a, ha⟩ := List.exists_mem_of_ne_nil _ hne
      have := (hord k a ha).2
      omega
  have hmaxlist : m.st.free_lists m.st.max_order = [m.st.base] := by
    have hirr : ∀ a ∈ m.st.free_lists m.st.max_order, a = m.st.base := by
      intro a ha
      have h1 := (hal _ a ha).1
      have h2 := free_within I (by omega) ha
      have h3 := Nat.pos_pow_of_pos m.st.max_order (show 0 < 2 by norm_num)
      omega
    have hsingle : fcnt m.st.free_lists m.st.base
        = lcnt (m.st.free_lists m.st.max_order) m.st.max_order m.st.base := by
      unfold fcnt
      apply Finset.sum_eq_single
      · intro j _ hne
        rcases lt_trichotomy j m.st.max_order with h | rfl | h
        · rw [hbelow j h]; simp [lcnt]
        · exact absurd rfl hne
        · rw [habove j h]; simp [lcnt]
      · intro hnotin
        exact absurd (Finset.mem_range.mpr (by omega)) hnotin
    have hc0 := cover0 m.st.base
    rw [ivl_self, hsingle] at hc0
    cases hfl : m.st.free_lists m.st.max_order with
    | nil =>
      rw [hfl] at hc0
      simp [lcnt] at hc0
    | cons x t =>
      have hx : x = m.st.base := hirr x (by rw [hfl]; exact List.mem_cons_self _ _)
      cases t with
      | nil => rw [hx]
      | cons y t2 =>
        have hy : y = m.st.base :=
          hirr y (by rw [hfl]; exact List.mem_cons_of_mem _ (List.mem_cons_self _ _))
        rw [hfl, lcnt_cons, lcnt_cons, hx, hy, ivl_self] at hc0
        omega
  refine ⟨?_, hmaxlist⟩
  intro k hk
  rcases lt_or_gt_of_ne hk with h | h
  · exact hbelow k h
  · exact habove k h

/-! ## Alignment of served pointers -/

theorem seg_alloc_aligned {m : seg_mach} {s p : Nat} {m2 : seg_mach}
    (hA : seg_align m) (h : segregated_freelist_alloc m s = (m2, some p)) :
    p % 8 = 0 := by
  obtain ⟨hs, a, hp, hlive, hstats, hcases⟩ := seg_alloc_success h
  have ha8 : a % 8 = 0 := by
    rcases hcases with ⟨i, rest, hgc, hfl, hst⟩ | ⟨i, sz, rest, hgc, hfl, hcut, hst⟩ |
      ⟨sz, rest, hgc, hcut, hst⟩
    · exact hA.fa i a (by rw [hfl]; exact List.mem_cons_self _ _)
    · exact hA.la (a, sz) (cut_first_fit_spec hcut).2.1
    · exact hA.la (a, sz) (cut_first_fit_spec hcut).2.1
  rw [hp]
  show (a + 24) % 8 = 0
  omega

theorem buddy_alloc_aligned {m : buddy_mach} {s p : Nat} {m2 : buddy_mach}
    (I : buddy_sinv m) (h : buddy_allocator_alloc m s = (m2, some p)) :
    p % 16 = 0 := by
  obtain ⟨hs, block, rest, found, hp, hof, hfm, hfl, _, _, _⟩ := buddy_alloc_success h
  have hmem : block ∈ m.st.free_lists found := by
    rw [hfl]
    exact List.mem_cons_self _ _
  obtain ⟨hb, hd⟩ := I.lok.2.2.1 found block hmem
  have h5f : (2 : Nat) ^ 5 ∣ 2 ^ found :=
    pow_dvd_pow 2 (le_trans I.mn5 (I.lok.2.1 found block hmem).1)
  have h5m : (2 : Nat) ^ 5 ∣ 2 ^ m.st.max_order := pow_dvd_pow 2 (le_trans I.mn5 I.mm)
  have hdb : (2 : Nat) ^ 5 ∣ (block - m.st.base) := dvd_trans h5f hd
  have hbb : (2 : Nat) ^ 5 ∣ m.st.base := dvd_trans h5m I.ba
  have h32 : (32 : Nat) ∣ block := by
    show (2 : Nat) ^ 5 ∣ block
    have hsum := Nat.dvd_add hbb hdb
    have heq : m.st.base + (block - m.st.base) = block := by omega
    rw [heq] at hsum
    exact hsum
  rw [hp]
  show (block + 16) % 16 = 0
  omega

/-! ## Exact accounting of single operations -/

/-- Exact statistic increments of a successful segregated allocation. -/
theorem seg_alloc_exact {m : seg_mach} {s p : Nat} {m2 : seg_mach} (hI : seg_inv m)
    (hs31 : s + 31 < W) (h : segregated_freelist_alloc m s = (m2, some p)) :
    ∃ a, p = a + SEG_HEADER_SIZE ∧ m2.live = ⟨a, seg_total s, s⟩ :: m.live ∧
      s ≤ seg_total s ∧
      m2.stats.current_allocated = m.stats.current_allocated + seg_total s ∧
      m2.stats.current_requested = m.stats.current_requested + s := by
  obtain ⟨hfb, hhs⟩ := seg_alloc_free_bytes h
  obtain ⟨hs0, a, hp, hlive, hstats, _⟩ := seg_alloc_success h
  obtain ⟨hts, htub⟩ := seg_total_bounds hs31
  have hca : m.stats.current_allocated + seg_total s ≤ m.st.heap_size := by
    have h1 := hI.acc
    have h2 := hI.ca
    omega
  have hcr : m.stats.current_requested ≤ m.stats.current_allocated := by
    rw [hI.ca, hI.cr]
    exact List.sum_le_sum hI.rc
  have hwa : wadd m.stats.current_allocated (seg_total s)
      = m.stats.current_allocated + seg_total s :=
    wadd_eq (by have := hI.hsW; omega)
  have hwr : wadd m.stats.current_requested s = m.stats.current_requested + s :=
    wadd_eq (by have := hI.hsW; simp [SEG_HEADER_SIZE] at hts; omega)
  refine ⟨a, hp, hlive, by simp [SEG_HEADER_SIZE] at hts; omega, ?_, ?_⟩
  · rw [hstats]
    show wadd m.stats.current_allocated (seg_total s) = _
    rw [hwa]
  · rw [hstats]
    show wadd m.stats.current_requested s = _
    rw [hwr]

/-- Exact statistic increments of a successful buddy allocation. -/
theorem buddy_alloc_exact {m : buddy_mach} {s p : Nat} {m2 : buddy_mach}
    (iS : buddy_sinv m) (iI : buddy_inv m)
    (hs31 : s + 31 < W) (h : buddy_allocator_alloc m s = (m2, some p)) :
    ∃ a, p = a + BUDDY_HEADER_SIZE ∧
      m2.live = ⟨a, buddy_order m.st s, s⟩ :: m.live ∧
      s ≤ 2 ^ buddy_order m.st s ∧
      m2.stats.current_allocated
        = m.stats.current_allocated + 2 ^ buddy_order m.st s ∧
      m2.stats.current_requested = m.stats.current_requested + s := by
  obtain ⟨h0, block, rest, found, hp, hof, hfm, hfl, hstats, hlive, hst⟩ :=
    buddy_alloc_success h
  have iS2 : buddy_sinv m2 := by
    have h2 := buddy_sinv_alloc s iS
    rw [h] at h2
    exact h2
  have h16W : s + BUDDY_HEADER_SIZE < W := by
    show s + 16 < W
    omega
  have hcov : s + BUDDY_HEADER_SIZE ≤ 2 ^ buddy_order m.st s :=
    buddy_order_covers m.st h16W
  have hlb2 := buddy_live_bytes iS2
  rw [hlive] at hlb2
  simp only [List.map_cons, List.sum_cons] at hlb2
  have hmax2 : m2.st.max_order = m.st.max_order := by rw [hst]
  rw [hmax2] at hlb2
  have hhsx : 2 ^ m.st.max_order = m.st.heap_size := iS.hs2.symm
  have hwa : wadd m.stats.current_allocated (order_to_size (buddy_order m.st s))
      = m.stats.current_allocated + 2 ^ buddy_order m.st s := by
    show wadd _ (2 ^ buddy_order m.st s) = _
    exact wadd_eq (by have := iI.ca; have := iI.hsW; omega)
  have hsle : s ≤ 2 ^ buddy_order m.st s := by
    have h16 : BUDDY_HEADER_SIZE = 16 := rfl
    omega
  have hwr : wadd m.stats.current_requested s = m.stats.current_requested + s := by
    refine wadd_eq ?_
    have h1 := iI.ca
    have h2 := iI.hsW
    have h3 : m.stats.current_requested ≤ m.stats.current_allocated := by
      rw [iI.ca, iI.cr]
      exact List.sum_le_sum iI.rc
    omega
  refine ⟨block, hp, hlive, hsle, ?_, ?_⟩
  · rw [hstats]
    show wadd m.stats.current_allocated (order_to_size (buddy_order m.st s)) = _
    rw [hwa]
  · rw [hstats]
    show wadd m.stats.current_requested s = _
    rw [hwr]

/-! ## Statistic shapes of frees and peak monotonicity -/

theorem seg_free_raw_stats (m : seg_mach) (addr c r : Nat) :
    (segregated_freelist_free_raw m addr BLOCK_MAGIC c r).stats
      = stats_on_free m.stats c r := by
  cases hgc : get_size_class c with
  | some i =>
    by_cases he : c = size_class i
    · rw [seg_free_raw_class hgc he]
    · rw [seg_free_raw_off_class hgc he]
  | none => rw [seg_free_raw_no_class hgc]

theorem seg_free_valid_stats_eq (m : seg_mach) (b : seg_block) :
    (segregated_freelist_free_valid m b).stats
      = stats_on_free m.stats b.committed b.requested := by
  show (segregated_freelist_free_raw m b.addr BLOCK_MAGIC b.committed b.requested).stats
      = _
  exact seg_free_raw_stats m b.addr b.committed b.requested

theorem buddy_free_raw_stats (m : buddy_mach) (addr o r : Nat) :
    (buddy_allocator_free_raw m addr BUDDY_MAGIC o r).stats
      = if o < m.st.min_order ∨ m.st.max_order < o then m.stats
        else stats_on_free m.stats (order_to_size o) r := by
  by_cases ho : o < m.st.min_order ∨ m.st.max_order < o
  · rw [buddy_free_raw_bad_order ho, if_pos ho]
  · rw [if_neg ho]
    by_cases hr : addr < m.st.base ∨ m.st.base + m.st.heap_size ≤ addr
    · rw [buddy_free_raw_out_of_range ho hr]
    · rw [buddy_free_raw_main ho hr]

theorem stats_on_alloc_peaks (s : allocator_stats_t) (c r : Nat) :
    s.peak_allocated ≤ (stats_on_alloc s c r).peak_allocated ∧
    s.peak_requested ≤ (stats_on_alloc s c r).peak_requested := by
  constructor
  · show s.peak_allocated ≤ max s.peak_allocated (wadd s.current_allocated c)
    exact le_max_left _ _
  · show s.peak_requested ≤ max s.peak_requested (wadd s.current_requested r)
    exact le_max_left _ _

theorem buddy_free_valid_peaks (m : buddy_mach) (b : buddy_block) :
    (buddy_allocator_free_valid m b).stats.peak_allocated = m.stats.peak_allocated ∧
    (buddy_allocator_free_valid m b).stats.peak_requested = m.stats.peak_requested := by
  have hh : (buddy_allocator_free_valid m b).stats
      = (buddy_allocator_free_raw m b.addr BUDDY_MAGIC b.order b.requested).stats := rfl
  rw [hh, buddy_free_raw_stats]
  split_ifs
  · exact ⟨rfl, rfl⟩
  · exact ⟨rfl, rfl⟩

/-- Allocation never lowers the peak statistics. -/
theorem fac_alloc_peaks (f : facade) (s : Nat) :
    (fac_stats f).peak_allocated ≤ (fac_stats (allocator_alloc f s).1).peak_allocated ∧
    (fac_stats f).peak_requested ≤ (fac_stats (allocator_alloc f s).1).peak_requested := by
  cases f with
  | seg m =>
    show m.stats.peak_allocated ≤ (segregated_freelist_alloc m s).1.stats.peak_allocated
      ∧ m.stats.peak_requested ≤ (segregated_freelist_alloc m s).1.stats.peak_requested
    rcases hres : segregated_freelist_alloc m s with ⟨m2, res⟩
    cases res with
    | none =>
      have hsh := seg_alloc_fail hres
      by_cases h0 : s = 0
      · rw [if_pos h0] at hsh
        subst hsh
        exact ⟨le_rfl, le_rfl⟩
      · rw [if_neg h0] at hsh
        subst hsh
        exact ⟨le_rfl, le_rfl⟩
    | some p =>
      obtain ⟨hs0, a, hp, hlive, hstats, _⟩ := seg_alloc_success hres
      show m.stats.peak_allocated ≤ m2.stats.peak_allocated
        ∧ m.stats.peak_requested ≤ m2.stats.peak_requested
      rw [hstats]
      exact stats_on_alloc_peaks m.stats _ _
  | buddy m =>
    show m.stats.peak_allocated ≤ (buddy_allocator_alloc m s).1.stats.peak_allocated
      ∧ m.stats.peak_requested ≤ (buddy_allocator_alloc m s).1.stats.peak_requested
    rcases hres : buddy_allocator_alloc m s with ⟨m2, res⟩
    cases res with
    | none =>
      have hsh := buddy_alloc_fail hres
      by_cases h0 : s = 0
      · rw [if_pos h0] at hsh
        subst hsh
        exact ⟨le_rfl, le_rfl⟩
      · rw [if_neg h0] at hsh
        subst hsh
        exact ⟨le_rfl, le_rfl⟩
    | some p =>
      obtain ⟨hs0, block, rest, found, hp, hof, hfm, hfl, hstats, _, _⟩ :=
        buddy_alloc_success hres
      show m.stats.peak_allocated ≤ m2.stats.peak_allocated
        ∧ m.stats.peak_requested ≤ m2.stats.peak_requested
      rw [hstats]
      exact stats_on_alloc_peaks m.stats _ _

/-- Freeing never changes the peak statistics. -/
theorem fac_free_peaks (f : facade) (q : Nat) :
    (fac_stats f).peak_allocated ≤ (fac_stats (allocator_free_at f q)).peak_allocated ∧
    (fac_stats f).peak_requested ≤ (fac_stats (allocator_free_at f q)).peak_requested := by
  cases f with
  | seg m =>
    show m.stats.peak_allocated
        ≤ (fac_stats (allocator_free_at (facade.seg m) q)).peak_allocated ∧ _
    simp only [allocator_free_at]
    cases hf : m.live.find? (fun b => b.addr + SEG_HEADER_SIZE == q) with
    | none => exact ⟨le_rfl, le_rfl⟩
    | some b =>
      have h1 : (segregated_freelist_free_valid m b).stats
          = stats_on_free m.stats b.committed b.requested := seg_free_valid_stats_eq m b
      constructor
      · show m.stats.peak_allocated ≤ (segregated_freelist_free_valid m b).stats.peak_allocated
        rw [h1]
        exact le_rfl
      · show m.stats.peak_requested ≤ (segregated_freelist_free_valid m b).stats.peak_requested
        rw [h1]
        exact le_rfl
  | buddy m =>
    show m.stats.peak_allocated
        ≤ (fac_stats (allocator_free_at (facade.buddy m) q)).peak_allocated ∧ _
    simp only [allocator_free_at]
    cases hf : m.live.find? (fun b => b.addr + BUDDY_HEADER_SIZE == q) with
    | none => exact ⟨le_rfl, le_rfl⟩
    | some b =>
      obtain ⟨h1, h2⟩ := buddy_free_valid_peaks m b
      constructor
      · show m.stats.peak_allocated ≤ (buddy_allocator_free_valid m b).stats.peak_allocated
        rw [h1]
      · show m.stats.peak_requested ≤ (buddy_allocator_free_valid m b).stats.peak_requested
        rw [h2]

/-! ## Reachability closure under facade operations -/

theorem fac_reach_ok_alloc {f : facade} (h : fac_reach_ok f) (s : Nat)
    (hs : s + 31 < W) : fac_reach_ok (allocator_alloc f s).1 := by
  cases f with
  | seg m => exact seg_reach_ok.stepped_alloc m s h hs
  | buddy m => exact buddy_reach_ok.stepped_alloc m s h hs

theorem fac_reach_ok_free {f : facade} (h : fac_reach_ok f) (q : Nat) :
    fac_reach_ok (allocator_free_at f q) := by
  cases f with
  | seg m =>
    show fac_reach_ok (allocator_free_at (facade.seg m) q)
    simp only [allocator_free_at]
    cases hf : m.live.find? (fun b => b.addr + SEG_HEADER_SIZE == q) with
    | none => exact h
    | some b => exact seg_reach_ok.stepped_free m b h (List.mem_of_find?_eq_some hf)
  | buddy m =>
    show fac_reach_ok (allocator_free_at (facade.buddy m) q)
    simp only [allocator_free_at]
    cases hf : m.live.find? (fun b => b.addr + BUDDY_HEADER_SIZE == q) with
    | none => exact h
    | some b => exact buddy_reach_ok.stepped_free m b h (List.mem_of_find?_eq_some hf)

/-! ## Auxiliary facts for the claim theorems -/

theorem get_size_class_of_class {i : Nat} (h : i < 8) :
    get_size_class (size_class i) = some i := by
  interval_cases i <;> decide

/-! ## Claim C1 -/

/-- C1 (amended): a successful segregated allocation whose footprint maps to
    class i records committed size align8(s + header) — which is at most
    SIZE_CLASSES[i], not necessarily equal to it — and on the free side a
    block of committed size exactly SIZE_CLASSES[i] is pushed back onto
    free_lists[i] (with the rest of the state untouched apart from the
    statistics), while a free of any other committed size never touches
    free_lists[i]. -/
theorem C1_amended {m : seg_mach} {s : Nat} {m2 : seg_mach} {p i : Nat}
    (h : segregated_freelist_alloc m s = (m2, some p))
    (hi : get_size_class (seg_total s) = some i) :
    (∃ a, p = a + SEG_HEADER_SIZE ∧ m2.live = ⟨a, seg_total s, s⟩ :: m.live) ∧
    seg_total s ≤ size_class i ∧
    (∀ (m3 : seg_mach) (addr r : Nat),
      segregated_freelist_free_raw m3 addr BLOCK_MAGIC (size_class i) r
        = { m3 with stats := stats_on_free m3.stats (size_class i) r, st := { m3.st with free_lists := Function.update m3.st.free_lists i (addr :: m3.st.free_lists i) } }) ∧
    (∀ (m3 : seg_mach) (addr c r : Nat), c ≠ size_class i →
      (segregated_freelist_free_raw m3 addr BLOCK_MAGIC c r).st.free_lists i
        = m3.st.free_lists i) := by
  obtain ⟨hs0, a, hp, hlive, hstats, _⟩ := seg_alloc_success h
  obtain ⟨hi8, hle, _, _, _⟩ := get_size_class_spec hi
  refine ⟨⟨a, hp, hlive⟩, hle, ?_, ?_⟩
  · intro m3 addr r
    exact seg_free_raw_class (get_size_class_of_class hi8) rfl
  · intro m3 addr c r hc
    cases hgc : get_size_class c with
    | some j =>
      by_cases he : c = size_class j
      · have hji : j ≠ i := by
          intro hji
          rw [hji] at he
          exact hc he
        rw [seg_free_raw_class hgc he]
        show Function.update m3.st.free_lists j (addr :: m3.st.free_lists j) i = _
        rw [Function.update_noteq (by omega)]
      · rw [seg_free_raw_off_class hgc he]
    | none => rw [seg_free_raw_no_class hgc]

/-- C1 counterexample: requesting 9 bytes maps to class 2 (64 bytes) but the
    served block records committed size 40, not 64. -/
theorem C1_counterexample :
    get_size_class (seg_total 9) = some 2 ∧ size_class 2 = 64 ∧
    (segregated_freelist_alloc seg_M0 9).2 = some 112 ∧
    (segregated_freelist_alloc seg_M0 9).1.live.head?
      = some ⟨88, seg_total 9, 9⟩ ∧
    seg_total 9 = 40 ∧ (40 : Nat) ≠ 64 := by decide

/-- C1 witness: the amended theorem applied to the allocation of 9 bytes on
    the fresh segregated machine. -/
theorem C1_witness : seg_total 9 ≤ size_class 2 :=
  (C1_amended
    (show segregated_freelist_alloc seg_M0 9
        = ((segregated_freelist_alloc seg_M0 9).1, some 112) from rfl)
    (by decide)).2.1

/-! ## Claim C2 -/

/-- C2 (amended): a free whose header magic fails is a complete no-op on both
    allocators, and a buddy free with an out-of-range order is a complete
    no-op; but a buddy free whose block base lies outside the heap updates
    the free statistics (and only them) before returning — it is not a
    no-op, contrary to the original claim. -/
theorem C2_amended :
    (∀ (m : seg_mach) (addr mg c r : Nat), mg ≠ BLOCK_MAGIC →
      segregated_freelist_free_raw m addr mg c r = m) ∧
    (∀ (m : buddy_mach) (addr mg o r : Nat), mg ≠ BUDDY_MAGIC →
      buddy_allocator_free_raw m addr mg o r = m) ∧
    (∀ (m : buddy_mach) (addr o r : Nat),
      o < m.st.min_order ∨ m.st.max_order < o →
      buddy_allocator_free_raw m addr BUDDY_MAGIC o r = m) ∧
    (∀ (m : buddy_mach) (addr o r : Nat),
      ¬(o < m.st.min_order ∨ m.st.max_order < o) →
      (addr < m.st.base ∨ m.st.base + m.st.heap_size ≤ addr) →
      buddy_allocator_free_raw m addr BUDDY_MAGIC o r
        = { m with stats := stats_on_free m.stats (order_to_size o) r }) :=
  ⟨fun _ _ _ _ _ h => seg_free_raw_magic h,
   fun _ _ _ _ _ h => buddy_free_raw_magic h,
   fun _ _ _ _ h => buddy_free_raw_bad_order h,
   fun _ _ _ _ h1 h2 => buddy_free_raw_out_of_range h1 h2⟩

/-- C2 counterexample: an out-of-range buddy free with intact magic and
    valid order bumps total_frees (and moves the byte counters), so it is
    not a no-op. -/
theorem C2_counterexample :
    ¬(10 < bud_M0.st.min_order ∨ bud_M0.st.max_order < 10) ∧
    (100 < bud_M0.st.base ∨ bud_M0.st.base + bud_M0.st.heap_size ≤ 100) ∧
    (buddy_allocator_free_raw bud_M0 100 BUDDY_MAGIC 10 0).stats.total_frees = 1 ∧
    bud_M0.stats.total_frees = 0 := by decide

/-- C2 witness: the magic-gate no-op applied at a concrete machine. -/
theorem C2_witness : segregated_freelist_free_raw seg_M0 112 0 40 9 = seg_M0 :=
  C2_amended.1 seg_M0 112 0 40 9 (by decide)

/-! ## Claim C3 -/

/-- C3 (amended): along valid facade operation sequences whose allocation
    sizes do not wrap the size_t footprint computation, the statistics
    satisfy current_requested ≤ current_allocated ≤ heap_size; the peak
    counters never decrease under any allocation or free; every successful
    allocation of s bytes adds exactly s to current_requested and exactly
    the committed block size to current_allocated, and the paired free
    subtracts exactly the same two amounts. -/
theorem C3_amended {f : facade} (h : fac_reach_ok f) :
    ((fac_stats f).current_requested ≤ (fac_stats f).current_allocated ∧
     (fac_stats f).current_allocated ≤ (fac_stats f).heap_size) ∧
    (∀ s, (fac_stats f).peak_allocated
        ≤ (fac_stats (allocator_alloc f s).1).peak_allocated ∧
      (fac_stats f).peak_requested
        ≤ (fac_stats (allocator_alloc f s).1).peak_requested) ∧
    (∀ q, (fac_stats f).peak_allocated
        ≤ (fac_stats (allocator_free_at f q)).peak_allocated ∧
      (fac_stats f).peak_requested
        ≤ (fac_stats (allocator_free_at f q)).peak_requested) ∧
    (∀ s f2 p, s + 31 < W → allocator_alloc f s = (f2, some p) →
      ∃ c, s ≤ c ∧ fac_out f2 = (p, c, s) :: fac_out f ∧
        (fac_stats f2).current_allocated = (fac_stats f).current_allocated + c ∧
        (fac_stats f2).current_requested = (fac_stats f).current_requested + s ∧
        (fac_stats (allocator_free_at f2 p)).current_allocated + c
            = (fac_stats f2).current_allocated ∧
        (fac_stats (allocator_free_at f2 p)).current_requested + s
            = (fac_stats f2).current_requested) := by
  refine ⟨?_, fun s => fac_alloc_peaks f s, fun q => fac_free_peaks f q, ?_⟩
  · cases f with
    | seg m =>
      have hI := seg_reach_ok_inv h
      constructor
      · show m.stats.current_requested ≤ m.stats.current_allocated
        rw [hI.ca, hI.cr]
        exact List.sum_le_sum hI.rc
      · show m.stats.current_allocated ≤ m.stats.heap_size
        have h1 := hI.acc
        have h2 := hI.ca
        have h3 := hI.hs_eq
        omega
    | buddy m =>
      obtain ⟨iS, iI⟩ := buddy_reach_ok_inv h
      constructor
      · show m.stats.current_requested ≤ m.stats.current_allocated
        rw [iI.ca, iI.cr]
        exact List.sum_le_sum iI.rc
      · show m.stats.current_allocated ≤ m.stats.heap_size
        have h1 := buddy_live_bytes iS
        have h2 := iS.hs2
        have h3 := iI.ca
        have h4 := iI.hs_eq
        omega
  · intro s f2 p hs31 ha
    cases f with
    | seg m =>
      have hI := seg_reach_ok_inv h
      rcases hr : segregated_freelist_alloc m s with ⟨m2, res⟩
      have ha2 : (facade.seg (segregated_freelist_alloc m s).1,
          (segregated_freelist_alloc m s).2) = (f2, some p) := ha
      rw [hr] at ha2
      obtain ⟨hf2, hres⟩ := (Prod.mk.injEq _ _ _ _).mp ha2
      subst hres
      have hr2 : segregated_freelist_alloc m s = (m2, some p) := hr
      obtain ⟨a, hp, hlive, hsle, hca, hcr⟩ := seg_alloc_exact hI hs31 hr2
      have hI2 : seg_inv m2 := by
        have h2 := seg_inv_alloc hI hs31
        rw [hr2] at h2
        exact h2
      have hfind : m2.live.find? (fun b => b.addr + SEG_HEADER_SIZE == p)
          = some ⟨a, seg_total s, s⟩ := by
        rw [hlive]
        apply List.find?_cons_of_pos
        simp [hp]
      have hmem : (⟨a, seg_total s, s⟩ : seg_block) ∈ m2.live := by
        rw [hlive]
        exact List.mem_cons_self _ _
      obtain ⟨hI3, hdc, hdr⟩ := seg_free_valid_spec hI2 hmem
      refine ⟨seg_total s, hsle, ?_, ?_, ?_, ?_, ?_⟩
      · rw [← hf2]
        show m2.live.map (fun b => (b.addr + SEG_HEADER_SIZE, b.committed, b.requested))
            = (p, seg_total s, s) :: m.live.map
                (fun b => (b.addr + SEG_HEADER_SIZE, b.committed, b.requested))
        rw [hlive, hp]
        rfl
      · rw [← hf2]
        exact hca
      · rw [← hf2]
        exact hcr
      · rw [← hf2]
        show (fac_stats (allocator_free_at (facade.seg m2) p)).current_allocated
            + seg_total s = m2.stats.current_allocated
        simp only [allocator_free_at, hfind]
        exact hdc
      · rw [← hf2]
        show (fac_stats (allocator_free_at (facade.seg m2) p)).current_requested
            + s = m2.stats.current_requested
        simp only [allocator_free_at, hfind]
        exact hdr
    | buddy m =>
      obtain ⟨iS, iI⟩ := buddy_reach_ok_inv h
      rcases hr : buddy_allocator_alloc m s with ⟨m2, res⟩
      have ha2 : (facade.buddy (buddy_allocator_alloc m s).1,
          (buddy_allocator_alloc m s).2) = (f2, some p) := ha
      rw [hr] at ha2
      obtain ⟨hf2, hres⟩ := (Prod.mk.injEq _ _ _ _).mp ha2
      subst hres
      have hr2 : buddy_allocator_alloc m s = (m2, some p) := hr
      obtain ⟨a, hp, hlive, hsle, hca, hcr⟩ := buddy_alloc_exact iS iI hs31 hr2
      obtain ⟨iS2, iI2⟩ : buddy_sinv m2 ∧ buddy_inv m2 := by
        have h2 := buddy_reach_ok_inv (buddy_reach_ok.stepped_alloc m s h hs31)
        rw [hr2] at h2
        exact h2
      have hfind : m2.live.find? (fun b => b.addr + BUDDY_HEADER_SIZE == p)
          = some ⟨a, buddy_order m.st s, s⟩ := by
        rw [hlive]
        apply List.find?_cons_of_pos
        simp [hp]
      have hmem : (⟨a, buddy_order m.st s, s⟩ : buddy_block) ∈ m2.live := by
        rw [hlive]
        exact List.mem_cons_self _ _
      obtain ⟨hdc, hdr⟩ := buddy_free_valid_stats iS2 iI2 hmem
      refine ⟨2 ^ buddy_order m.st s, hsle, ?_, ?_, ?_, ?_, ?_⟩
      · rw [← hf2]
        show m2.live.map (fun b => (b.addr + BUDDY_HEADER_SIZE, 2 ^ b.order, b.requested))
            = (p, 2 ^ buddy_order m.st s, s) :: m.live.map
                (fun b => (b.addr + BUDDY_HEADER_SIZE, 2 ^ b.order, b.requested))
        rw [hlive, hp]
        rfl
      · rw [← hf2]
        exact hca
      · rw [← hf2]
        exact hcr
      · rw [← hf2]
        show (fac_stats (allocator_free_at (facade.buddy m2) p)).current_allocated
            + 2 ^ buddy_order m.st s = m2.stats.current_allocated
        simp only [allocator_free_at, hfind]
        exact hdc
      · rw [← hf2]
        show (fac_stats (allocator_free_at (facade.buddy m2) p)).current_requested
            + s = m2.stats.current_requested
        simp only [allocator_free_at, hfind]
        exact hdr

/-- C3 counterexample: without the no-wrap side condition the invariant
    fails — allocating 2^64 - 24 bytes on the fresh segregated machine is a
    valid facade operation whose resulting state has current_requested far
    above current_allocated. -/
theorem C3_counterexample :
    fac_reach (facade.seg (segregated_freelist_alloc seg_M0 (2 ^ 64 - 24)).1) ∧
    (fac_stats (facade.seg (segregated_freelist_alloc seg_M0
        (2 ^ 64 - 24)).1)).current_allocated
      < (fac_stats (facade.seg (segregated_freelist_alloc seg_M0
          (2 ^ 64 - 24)).1)).current_requested :=
  ⟨seg_reach.stepped_alloc seg_M0 (2 ^ 64 - 24)
      (seg_reach.created 0 1048576 SEG_ST0 rfl),
   by decide⟩

/-- C3 witness: the amended theorem applied to the fresh segregated facade. -/
theorem C3_witness :
    (fac_stats (facade.seg seg_M0)).current_requested
      ≤ (fac_stats (facade.seg seg_M0)).current_allocated :=
  (C3_amended (f := facade.seg seg_M0)
    (seg_reach_ok.created 0 1048576 SEG_ST0 (by decide) rfl)).1.1

/-! ## Claim C4 -/

/-- C4: on the buddy allocator, whenever all outstanding blocks of a
    reachable machine have been freed (the live set is empty), greedy
    transitive XOR-buddy coalescing has restored the initial single-block
    state: the max_order list holds exactly the block at base and every
    other list is empty. -/
theorem C4_coalesce_restores {m : buddy_mach} (h : buddy_reach m)
    (hl : m.live = []) :
    m.st.free_lists m.st.max_order = [m.st.base] ∧
    ∀ k, k ≠ m.st.max_order → m.st.free_lists k = [] := by
  obtain ⟨h1, h2⟩ := sinv_empty_live_lists (buddy_reach_sinv h) hl
  exact ⟨h2, h1⟩

/-- C4 witness: allocate 100 bytes on the fresh buddy machine and free the
    block again; the theorem applies and the lists have coalesced back. -/
theorem C4_witness :
    (buddy_allocator_free_valid (buddy_allocator_alloc bud_M0 100).1
        ⟨524288, 7, 100⟩).st.free_lists
      (buddy_allocator_free_valid (buddy_allocator_alloc bud_M0 100).1
        ⟨524288, 7, 100⟩).st.max_order
    = [(buddy_allocator_free_valid (buddy_allocator_alloc bud_M0 100).1
        ⟨524288, 7, 100⟩).st.base] ∧
    ∀ k, k ≠ (buddy_allocator_free_valid (buddy_allocator_alloc bud_M0 100).1
        ⟨524288, 7, 100⟩).st.max_order →
      (buddy_allocator_free_valid (buddy_allocator_alloc bud_M0 100).1
        ⟨524288, 7, 100⟩).st.free_lists k = [] :=
  C4_coalesce_restores
    (buddy_reach.stepped_free (buddy_allocator_alloc bud_M0 100).1 ⟨524288, 7, 100⟩
      (buddy_reach.stepped_alloc bud_M0 100
        (buddy_reach.created 0 1048576 BUD_ST0 rfl))
      (by decide))
    (by decide)

/-! ## Claim C5 -/

/-- C5: allocator_realloc behaves exactly as specified — a null pointer
    delegates to alloc, a zero size frees the pointer and returns null, and
    otherwise a new block is allocated and the old one freed (only when the
    allocation produced a block), with no payload bytes copied. -/
theorem C5_realloc_spec :
    ∀ (f : facade) (ptr : Option Nat) (n : Nat),
      allocator_realloc f ptr n = realloc_model f ptr n := by
  intro f ptr n
  cases ptr with
  | none => rfl
  | some p =>
    by_cases h0 : n = 0
    · subst h0
      rfl
    · simp only [allocator_realloc, realloc_model, if_neg h0]
      rcases hr : allocator_alloc f n with ⟨f1, res⟩
      cases res with
      | some q => simp
      | none => simp

/-! ## Claim C6 -/

/-- C6: every non-null pointer returned by alloc on a reachable facade is
    8-byte aligned for the segregated allocator and 16-byte aligned for the
    buddy allocator. -/
theorem C6_alloc_aligned {f : facade} (h : fac_reach f) {s p : Nat} {f2 : facade}
    (ha : allocator_alloc f s = (f2, some p)) :
    p % fac_align_req f = 0 := by
  cases f with
  | seg m =>
    have hA := seg_reach_align h
    show p % 8 = 0
    rcases hr : segregated_freelist_alloc m s with ⟨m2, res⟩
    have ha2 : (facade.seg (segregated_freelist_alloc m s).1,
        (segregated_freelist_alloc m s).2) = (f2, some p) := ha
    rw [hr] at ha2
    have hres : res = some p := ((Prod.mk.injEq _ _ _ _).mp ha2).2
    exact seg_alloc_aligned hA
      (show segregated_freelist_alloc m s = (m2, some p) by rw [hr, hres])
  | buddy m =>
    have iS := buddy_reach_sinv h
    show p % 16 = 0
    rcases hr : buddy_allocator_alloc m s with ⟨m2, res⟩
    have ha2 : (facade.buddy (buddy_allocator_alloc m s).1,
        (buddy_allocator_alloc m s).2) = (f2, some p) := ha
    rw [hr] at ha2
    have hres : res = some p := ((Prod.mk.injEq _ _ _ _).mp ha2).2
    exact buddy_alloc_aligned iS
      (show buddy_allocator_alloc m s = (m2, some p) by rw [hr, hres])

/-- C6 witness: the pointer served for a 9-byte request on the fresh
    segregated facade is 112, a multiple of 8. -/
theorem C6_witness : (112 : Nat) % fac_align_req (facade.seg seg_M0) = 0 :=
  C6_alloc_aligned (f := facade.seg seg_M0)
    (seg_reach.created 0 1048576 SEG_ST0 rfl)
    (show allocator_alloc (facade.seg seg_M0) 9
        = ((allocator_alloc (facade.seg seg_M0) 9).1, some 112) from rfl)

/-! ## Claim C7 -/

/-- C7 (amended): when the request footprint s + header does not wrap
    size_t, a successful buddy allocation stores order
    max(min_order, ceil_log2(s + header)); that order covers the footprint
    and no smaller order at or above min_order does.  (Without the side
    condition the footprint wraps and the stored order covers nothing, as
    the counterexample shows.) -/
theorem C7_amended {m : buddy_mach} {s : Nat} {m2 : buddy_mach} {p : Nat}
    (h : buddy_allocator_alloc m s = (m2, some p))
    (hs : s + BUDDY_HEADER_SIZE < W) :
    ∃ b rest, m2.live = b :: rest ∧
      b.order = max m.st.min_order (ceil_log2_size (s + BUDDY_HEADER_SIZE)) ∧
      s + BUDDY_HEADER_SIZE ≤ 2 ^ b.order ∧
      ∀ k, m.st.min_order ≤ k → k < b.order → 2 ^ k < s + BUDDY_HEADER_SIZE := by
  obtain ⟨h0, block, rest, found, hp, hof, hfm, hfl, hstats, hlive, hst⟩ :=
    buddy_alloc_success h
  have hmod : (s + BUDDY_HEADER_SIZE) % W = s + BUDDY_HEADER_SIZE :=
    Nat.mod_eq_of_lt hs
  have hbo : buddy_order m.st s
      = max m.st.min_order (ceil_log2_size (s + BUDDY_HEADER_SIZE)) := by
    simp only [buddy_order, hmod]
    rcases le_or_lt m.st.min_order (ceil_log2_size (s + BUDDY_HEADER_SIZE)) with
      hle | hlt
    · rw [if_neg (by omega), max_eq_right hle]
    · rw [if_pos hlt, max_eq_left (le_of_lt hlt)]
  refine ⟨⟨block, buddy_order m.st s, s⟩, m.live, hlive, hbo, ?_, ?_⟩
  · show s + BUDDY_HEADER_SIZE ≤ 2 ^ buddy_order m.st s
    exact buddy_order_covers m.st hs
  · intro k hk1 hk2
    show 2 ^ k < s + BUDDY_HEADER_SIZE
    have hk2b : k < buddy_order m.st s := hk2
    have hc2 : 2 ≤ s + BUDDY_HEADER_SIZE := by
      show 2 ≤ s + 16
      omega
    have hkc : k < ceil_log2_size (s + BUDDY_HEADER_SIZE) := by
      rw [hbo] at hk2b
      rcases max_cases m.st.min_order (ceil_log2_size (s + BUDDY_HEADER_SIZE)) with
        ⟨he, hge⟩ | ⟨he, hge⟩ <;> omega
    have hmin := ceil_log2_min hc2
    have hpow : 2 ^ k ≤ 2 ^ (ceil_log2_size (s + BUDDY_HEADER_SIZE) - 1) :=
      Nat.pow_le_pow_right (by norm_num) (by omega)
    omega

/-- C7 counterexample: requesting 2^64 - 16 bytes wraps the footprint to 0;
    the allocation succeeds at order min_order = 5 although 2^5 does not
    cover s + header. -/
theorem C7_counterexample :
    (buddy_allocator_alloc bud_M0 (2 ^ 64 - 16)).2.isSome = true ∧
    (buddy_allocator_alloc bud_M0 (2 ^ 64 - 16)).1.live.head?
      = some ⟨524288, 5, 2 ^ 64 - 16⟩ ∧
    ¬((2 ^ 64 - 16) + BUDDY_HEADER_SIZE ≤ 2 ^ 5) := by decide

/-- C7 witness: the amended theorem applied to the 100-byte allocation on
    the fresh buddy machine. -/
theorem C7_witness :
    ∃ b rest, (buddy_allocator_alloc bud_M0 100).1.live = b :: rest ∧
      b.order = max bud_M0.st.min_order
        (ceil_log2_size (100 + BUDDY_HEADER_SIZE)) ∧
      100 + BUDDY_HEADER_SIZE ≤ 2 ^ b.order ∧
      ∀ k, bud_M0.st.min_order ≤ k → k < b.order →
        2 ^ k < 100 + BUDDY_HEADER_SIZE :=
  C7_amended
    (show buddy_allocator_alloc bud_M0 100
        = ((buddy_allocator_alloc bud_M0 100).1, some 524304) from rfl)
    (by decide)

/-! ## Claim C8 -/

/-- C8 (amended): refused creation always yields a null handle — a null
    region or an undersized buffer returns it immediately with no bytes
    written, and any non-null handle is a fully initialized machine, so no
    partial state is ever handed out.  However, a refusal that happens in
    the algorithm initializer occurs only after the facade header bytes were
    already memset in the caller's region, so the region is not left
    unchanged (see the counterexample). -/
theorem C8_amended :
    (∀ ty ms, allocator_create ty none ms = (none, [])) ∧
    (∀ ty rm ms, ms < ALLOCATOR_HEADER_SIZE →
      allocator_create ty (some rm) ms = (none, [])) ∧
    (∀ ty rm ms f, (allocator_create ty (some rm) ms).1 = some f →
      fac_reach f) := by
  refine ⟨fun ty ms => rfl, ?_, ?_⟩
  · intro ty rm ms hlt
    simp only [allocator_create, if_pos hlt]
  · intro ty rm ms f h
    simp only [allocator_create] at h
    split_ifs at h with h1 h2 h3 h4
    cases ty with
    | segregated_freelist =>
      rcases hinit : segregated_freelist_init
          (align_up (align_up rm 16 + ALLOCATOR_HEADER_SIZE) 16)
          (ms - (align_up rm 16 - rm)
            - (align_up (align_up rm 16 + ALLOCATOR_HEADER_SIZE) 16 - align_up rm 16))
        with ⟨os, ws⟩
      rw [hinit] at h
      cases os with
      | some st =>
        have hf : f = facade.seg
            { st := st, stats := stats_init st.heap_size, live := [] } := by
          have h2 : some (facade.seg
              { st := st, stats := stats_init st.heap_size, live := [] }) = some f := h
          exact (Option.some.inj h2).symm
        rw [hf]
        exact seg_reach.created _ _ st (by rw [hinit])
      | none => exact Option.noConfusion h
    | buddy =>
      rcases hinit : buddy_allocator_init
          (align_up (align_up rm 16 + ALLOCATOR_HEADER_SIZE) 16)
          (ms - (align_up rm 16 - rm)
            - (align_up (align_up rm 16 + ALLOCATOR_HEADER_SIZE) 16 - align_up rm 16))
        with ⟨os, ws⟩
      rw [hinit] at h
      cases os with
      | some st =>
        have hf : f = facade.buddy
            { st := st, stats := stats_init st.heap_size, live := [] } := by
          have h2 : some (facade.buddy
              { st := st, stats := stats_init st.heap_size, live := [] }) = some f := h
          exact (Option.some.inj h2).symm
        rw [hf]
        exact buddy_reach.created _ _ st (by rw [hinit])
      | none => exact Option.noConfusion h

/-- C8 counterexample: creating a segregated allocator over [0, 160) is
    refused (the implementation region is too small), yet the facade header
    bytes [0, 144) were already written into the caller's region. -/
theorem C8_counterexample :
    (allocator_create allocator_type_t.segregated_freelist (some 0) 160).1.isSome
      = false ∧
    (allocator_create allocator_type_t.segregated_freelist (some 0) 160).2
      = [(0, 144)] := by decide

/-- C8 witness: an undersized buffer is refused with nothing written. -/
theorem C8_witness :
    allocator_create allocator_type_t.segregated_freelist (some 0) 100
      = (none, []) :=
  C8_amended.2.1 allocator_type_t.segregated_freelist 0 100 (by decide)

/-! ## Claim C9 -/

/-- C9: alloc with size zero returns a null pointer and leaves the entire
    facade — every statistics counter including failed_allocations, and all
    free-list state — unchanged, on both algorithms. -/
theorem C9_alloc_zero : ∀ f : facade, allocator_alloc f 0 = (f, none) := by
  intro f
  cases f with
  | seg m => rfl
  | buddy m => rfl

/-! ## Claim C10 -/

/-- C10: when realloc's internal allocation of the new block fails, the old
    block is not freed: realloc returns null, the facade differs from the
    input only in the failed_allocations counter, and the outstanding
    allocations (including ptr's block) are untouched. -/
theorem C10_realloc_alloc_failure {f : facade} {p n : Nat} {f1 : facade}
    (hn : n ≠ 0) (h : allocator_alloc f n = (f1, none)) :
    allocator_realloc f (some p) n = (f1, none) ∧
    f1 = bump_failed f ∧
    fac_out f1 = fac_out f := by
  have hbf : f1 = bump_failed f := by
    cases f with
    | seg m =>
      rcases hr : segregated_freelist_alloc m n with ⟨m2, res⟩
      have ha2 : (facade.seg (segregated_freelist_alloc m n).1,
          (segregated_freelist_alloc m n).2) = (f1, none) := h
      rw [hr] at ha2
      obtain ⟨hf1, hres⟩ := (Prod.mk.injEq _ _ _ _).mp ha2
      subst hres
      have hsh := seg_alloc_fail hr
      rw [if_neg hn] at hsh
      rw [← hf1, hsh]
      rfl
    | buddy m =>
      rcases hr : buddy_allocator_alloc m n with ⟨m2, res⟩
      have ha2 : (facade.buddy (buddy_allocator_alloc m n).1,
          (buddy_allocator_alloc m n).2) = (f1, none) := h
      rw [hr] at ha2
      obtain ⟨hf1, hres⟩ := (Prod.mk.injEq _ _ _ _).mp ha2
      subst hres
      have hsh := buddy_alloc_fail hr
      rw [if_neg hn] at hsh
      rw [← hf1, hsh]
      rfl
  refine ⟨?_, hbf, ?_⟩
  · simp only [allocator_realloc, if_neg hn, h]
  · rw [hbf]
    cases f with
    | seg m => rfl
    | buddy m => rfl

/-- C10 witness: a 2-megabyte request fails on the fresh segregated facade;
    realloc keeps the old block. -/
theorem C10_witness :
    allocator_realloc (facade.seg seg_M0) (some 112) 2000000
      = ((allocator_alloc (facade.seg seg_M0) 2000000).1, none) ∧
    (allocator_alloc (facade.seg seg_M0) 2000000).1
      = bump_failed (facade.seg seg_M0) ∧
    fac_out (allocator_alloc (facade.seg seg_M0) 2000000).1
      = fac_out (facade.seg seg_M0) :=
  C10_realloc_alloc_failure (by decide)
    (show allocator_alloc (facade.seg seg_M0) 2000000
        = ((allocator_alloc (facade.seg seg_M0) 2000000).1, none) from rfl)
